import Mathlib

/-!
# Verification of the hf reactive UI framework

A shallow embedding, in Lean 4, of the parts of the `hf` framework that the
specification's claims are about:

* the shared utilities (`hasChanged`, strict equality with NaN semantics);
* the reactive proxy layer (`createReactiveObject`, `reactive`, `readonly`,
  `shallowReactive`, `shallowReadonly`, `toRaw`, `markRaw`, the readonly
  proxy handlers, the instrumented array search methods);
* refs (`Reference` get/set with `hasChanged` gating);
* the dependency-marker machinery (`Dep` bitmaps, `initDepMarkers`,
  `trackEffects`, `finalizeDepMarkers`, `trigger`/`triggerEffects`);
* the scheduler (`queueJob`, `findInsertionIndex`, `queuePreFlushCallback`,
  `flushJobs`);
* component registration (`registerComponent`);
* the keyed-children reconciliation of the renderer (`patchKeyedChildren`
  and `getSequence`, the longest-increasing-subsequence routine).

JavaScript machine state is made explicit: the object heap and the four
proxy registries become an `RState` value threaded through the functions,
effects and DOM operations become traces (lists of events), and fallible
code returns `Except`.  Numbers that the source only uses as array indices,
ids or bitmasks are modelled as `Nat`/`Int`.
-/

namespace HF

/-! ## Shared JS value model (packages/shared/src/utils.js) -/

/-- JavaScript values as far as the reactivity core inspects them:
primitives (with `NaN` distinguished, since `NaN !== NaN`) and heap objects
identified by their id (JS `===` on objects is identity). -/
inductive JSVal where
  | undef
  | nullv
  | boolv (b : Bool)
  | num (n : Int)
  | nan
  | str (s : String)
  | obj (id : Nat)
deriving DecidableEq, Repr

/-- The object id carried by an object value, if any. -/
def JSVal.objId? : JSVal → Option Nat
  | .obj i => some i
  | _ => none

/-- JS strict equality `===`: `NaN === x` is `false` for every `x`
(including `NaN` itself); otherwise structural/identity equality. -/
def strictEq : JSVal → JSVal → Bool
  | .nan, _ => false
  | _, .nan => false
  | a, b => a == b

/-- SameValueZero, the comparison used by `Array.prototype.includes`:
like `===` except that `NaN` equals `NaN`. -/
def sameValueZero : JSVal → JSVal → Bool
  | .nan, .nan => true
  | a, b => strictEq a b

/-- `hasChanged` (packages/shared/src/utils.js:82):
`(value, oldValue) => value !== oldValue && (value === value || oldValue === oldValue)`.
The second conjunct makes a NaN-to-NaN write count as unchanged. -/
def hasChanged (value oldValue : JSVal) : Bool :=
  (!strictEq value oldValue) && (strictEq value value || strictEq oldValue oldValue)

/-! ## Reactive proxy layer (unnamed/part_004, i.e. reactive.js) -/

/-- `toRawType` results that `targetTypeMap` distinguishes. -/
inductive JSType where
  | objectT
  | arrayT
  | mapT
  | setT
  | weakMapT
  | weakSetT
  | otherT
deriving DecidableEq, Repr

/-- The data a proxy created by `createReactiveObject` carries: its raw
target and which handler set (readonly? shallow? collection?) it was
created with. -/
structure ProxyInfo where
  target : Nat
  isReadonly : Bool
  shallow : Bool
  collection : Bool
deriving DecidableEq, Repr

/-- One heap object: the `__skip` flag (set by `markRaw`), extensibility,
its `toRawType`, whether it is a ref (`__isRef`), its own properties, and
`proxy = some info` when the object is a proxy created by
`createReactiveObject`. -/
structure ObjData where
  skip : Bool
  extensible : Bool
  jstype : JSType
  isRefObj : Bool
  props : List (String × JSVal)
  proxy : Option ProxyInfo
deriving DecidableEq, Repr

/-- The mutable state of the reactive module: the object heap (ids are
positions; allocation appends) and the four proxy registries
(`reactiveMap`, `shallowReactiveMap`, `readonlyMap`, `shallowReadonlyMap`,
part_004:42-45), each an association list raw-id to proxy-id. -/
structure RState where
  heap : List ObjData
  reactiveMap : List (Nat × Nat)
  shallowReactiveMap : List (Nat × Nat)
  readonlyMap : List (Nat × Nat)
  shallowReadonlyMap : List (Nat × Nat)
deriving DecidableEq, Repr

def lookupMap (m : List (Nat × Nat)) (k : Nat) : Option Nat :=
  (m.find? (fun e => e.1 == k)).map (·.2)

def RState.objData? (s : RState) (i : Nat) : Option ObjData :=
  s.heap.get? i

def RState.proxyInfo? (s : RState) (i : Nat) : Option ProxyInfo :=
  (s.objData? i).bind (·.proxy)

/-- Reading `target[ReactiveFlags.RAW]`: the get trap of a registered proxy
answers its raw target (part_004 getter, case `ReactiveFlags.RAW`); a plain
object has no such property (`undefined`, i.e. `none`). -/
def RState.rawProp? (s : RState) (i : Nat) : Option Nat :=
  (s.proxyInfo? i).map (·.target)

/-- Reading `value[ReactiveFlags.IS_REACTIVE]`: the get trap answers
`!isReadonly` of the handler set; plain objects answer `undefined`/false. -/
def RState.flagIsReactive (s : RState) (i : Nat) : Bool :=
  match s.proxyInfo? i with
  | some info => !info.isReadonly
  | none => false

/-- Reading `value[ReactiveFlags.IS_READONLY]`. -/
def RState.flagIsReadonly (s : RState) (i : Nat) : Bool :=
  match s.proxyInfo? i with
  | some info => info.isReadonly
  | none => false

/-- `isObject` (utils.js:68): non-null and of object type. -/
def isObjectVal : JSVal → Bool
  | .obj _ => true
  | _ => false

/-- `isReadonly` (part_004:218): `!!(value && value.__isReadonly)`. -/
def isReadonlyVal (s : RState) : JSVal → Bool
  | .obj i => s.flagIsReadonly i
  | _ => false

/-- `isRef` (ref.js:398): `Boolean(r && r.__isRef === true)`. -/
def isRefVal (s : RState) : JSVal → Bool
  | .obj i => ((s.objData? i).map (·.isRefObj)).getD false
  | _ => false

/-- The `TargetType` enum (part_004:52-56). -/
inductive TargetType where
  | invalid
  | common
  | collection
deriving DecidableEq, Repr

/-- `targetTypeMap` (part_004:63-76). -/
def targetTypeMap : JSType → TargetType
  | .objectT => .common
  | .arrayT => .common
  | .mapT => .collection
  | .setT => .collection
  | .weakMapT => .collection
  | .weakSetT => .collection
  | .otherT => .invalid

/-- `getTargetType` (part_004:83-87): skip-flagged or non-extensible objects
are INVALID, otherwise classified by raw type. -/
def RState.getTargetType (s : RState) (i : Nat) : TargetType :=
  match s.objData? i with
  | none => .invalid
  | some d => if d.skip || !d.extensible then .invalid else targetTypeMap d.jstype

/-- Which of the four proxy registries/handler sets a creation call uses. -/
inductive ProxyKind where
  | mutableK
  | shallowMutableK
  | readonlyK
  | shallowReadonlyK
deriving DecidableEq, Repr

def ProxyKind.isReadonly : ProxyKind → Bool
  | .readonlyK => true
  | .shallowReadonlyK => true
  | _ => false

def ProxyKind.shallow : ProxyKind → Bool
  | .shallowMutableK => true
  | .shallowReadonlyK => true
  | _ => false

def RState.mapOf (s : RState) : ProxyKind → List (Nat × Nat)
  | .mutableK => s.reactiveMap
  | .shallowMutableK => s.shallowReactiveMap
  | .readonlyK => s.readonlyMap
  | .shallowReadonlyK => s.shallowReadonlyMap

def RState.insertIntoMap (s : RState) (k : ProxyKind) (rawId proxyId : Nat) : RState :=
  match k with
  | .mutableK => { s with reactiveMap := (rawId, proxyId) :: s.reactiveMap }
  | .shallowMutableK => { s with shallowReactiveMap := (rawId, proxyId) :: s.shallowReactiveMap }
  | .readonlyK => { s with readonlyMap := (rawId, proxyId) :: s.readonlyMap }
  | .shallowReadonlyK => { s with shallowReadonlyMap := (rawId, proxyId) :: s.shallowReadonlyMap }

/-- The early-return test of `createReactiveObject` (part_004:174):
`target[ReactiveFlags.RAW] && !(isReadonly && target[ReactiveFlags.IS_REACTIVE])`. -/
def rawPassthrough (s : RState) (i : Nat) (isReadonly : Bool) : Bool :=
  (s.rawProp? i).isSome && !(isReadonly && s.flagIsReactive i)

/-- The proxy object allocated by `createReactiveObject` (part_004:190-193).
It mirrors its target's type/extensibility (a JS `Proxy` is transparent to
`Object.prototype.toString` and `Object.isExtensible`) and records the
handler set (readonly/shallow/collection) it was built with. -/
def mkProxyData (s : RState) (i : Nat) (isReadonly : Bool) (kind : ProxyKind)
    (tt : TargetType) : ObjData :=
  let base := (s.objData? i).getD ⟨false, true, .otherT, false, [], none⟩
  { skip := base.skip, extensible := base.extensible,
    jstype := base.jstype, isRefObj := false, props := [],
    proxy := some ⟨i, isReadonly, kind.shallow, tt == .collection⟩ }

/-- `createReactiveObject` (part_004:163-198).  Returns the proxy (or the
passed-through value) and the possibly extended state.  The wildcard final
arm is the `!isObject(target)` early return (part_004:170-172). -/
def createReactiveObject (s : RState) (target : JSVal) (isReadonly : Bool)
    (kind : ProxyKind) : JSVal × RState :=
  match target with
  | .obj i =>
    if rawPassthrough s i isReadonly then (target, s)
    else
      match lookupMap (s.mapOf kind) i with
      | some p => (.obj p, s)
      | none =>
        match s.getTargetType i with
        | .invalid => (target, s)
        | tt =>
          let pid := s.heap.length
          ((.obj pid),
            (RState.insertIntoMap
              { s with heap := s.heap ++ [mkProxyData s i isReadonly kind tt] }
              kind i pid))
  | _ => (target, s)

/-- `reactive` (part_004:94-106): readonly proxies are returned as-is. -/
def reactive (s : RState) (target : JSVal) : JSVal × RState :=
  if isReadonlyVal s target then (target, s)
  else createReactiveObject s target false .mutableK

/-- `shallowReactive` (part_004:113-121). -/
def shallowReactive (s : RState) (target : JSVal) : JSVal × RState :=
  createReactiveObject s target false .shallowMutableK

/-- `readonly` (part_004:129-137). -/
def readonly (s : RState) (target : JSVal) : JSVal × RState :=
  createReactiveObject s target true .readonlyK

/-- `shallowReadonly` (part_004:144-152). -/
def shallowReadonly (s : RState) (target : JSVal) : JSVal × RState :=
  createReactiveObject s target true .shallowReadonlyK

/-- The recursion of `toRaw` (part_004:246-250) on object ids, with fuel:
`toRaw(observed) = raw ? toRaw(raw) : observed`.  The heap size bounds
every proxy chain (a proxy's target is allocated before it), so
`s.heap.length` steps of fuel compute the exact fixpoint. -/
def toRawId (s : RState) : Nat → Nat → Nat
  | 0, i => i
  | fuel + 1, i =>
    match s.rawProp? i with
    | some t => toRawId s fuel t
    | none => i

/-- `toRaw` (part_004:246-250). -/
def toRaw (s : RState) : JSVal → JSVal
  | .obj i => .obj (toRawId s s.heap.length i)
  | v => v

/-- `markRaw` (part_004:258-262): set the `__skip` flag on the object. -/
def markRaw (s : RState) (i : Nat) : RState :=
  match s.objData? i with
  | some d => { s with heap := s.heap.set i { d with skip := true } }
  | none => s

/-- `toReactive` (part_004:269). -/
def toReactive (s : RState) (v : JSVal) : JSVal × RState :=
  if isObjectVal v then reactive s v else (v, s)

/-- The four public creation functions, indexed by the registry they use. -/
def creatorOf : ProxyKind → RState → JSVal → JSVal × RState
  | .mutableK => reactive
  | .shallowMutableK => shallowReactive
  | .readonlyK => readonly
  | .shallowReadonlyK => shallowReadonly

/-! ### Lemmas about the reactive creation path -/

theorem insertIntoMap_heap (s : RState) (k : ProxyKind) (r p : Nat) :
    (s.insertIntoMap k r p).heap = s.heap := by
  cases k <;> rfl

theorem mapOf_insertIntoMap_self (s : RState) (k : ProxyKind) (r p : Nat) :
    (s.insertIntoMap k r p).mapOf k = (r, p) :: s.mapOf k := by
  cases k <;> rfl

theorem mapOf_setHeap (s : RState) (h : List ObjData) (k : ProxyKind) :
    ({ s with heap := h } : RState).mapOf k = s.mapOf k := by
  cases k <;> rfl

theorem objData?_extend (s : RState) (d : ObjData) (i : Nat)
    (hi : i < s.heap.length) :
    ({ s with heap := s.heap ++ [d] } : RState).objData? i = s.objData? i := by
  simp only [RState.objData?, List.get?_eq_getElem?]
  exact List.getElem?_append_left hi

theorem objData?_insertIntoMap (s : RState) (k : ProxyKind) (r p : Nat) (i : Nat) :
    (s.insertIntoMap k r p).objData? i = s.objData? i := by
  cases k <;> rfl

theorem lookupMap_cons_self (m : List (Nat × Nat)) (r p : Nat) :
    lookupMap ((r, p) :: m) r = some p := by
  simp [lookupMap, List.find?]

/-- If an object id resolves on the heap, it is a valid heap index. -/
theorem objData?_lt (s : RState) (i : Nat) (d : ObjData)
    (h : s.objData? i = some d) : i < s.heap.length := by
  by_contra hn
  rw [RState.objData?, List.get?_eq_none.mpr (Nat.le_of_not_lt hn)] at h
  cases h

/-- A successful `getTargetType` means the object exists on the heap. -/
theorem getTargetType_exists (s : RState) (i : Nat)
    (h : s.getTargetType i ≠ .invalid) : ∃ d, s.objData? i = some d := by
  unfold RState.getTargetType at h
  cases hd : s.objData? i with
  | none => simp [hd] at h
  | some d => exact ⟨d, rfl⟩

/-- Flag reads only depend on the heap entry of the object. -/
theorem proxyInfo?_congr {s s' : RState} (i : Nat)
    (h : s'.objData? i = s.objData? i) : s'.proxyInfo? i = s.proxyInfo? i := by
  simp [RState.proxyInfo?, h]

theorem rawPassthrough_congr {s s' : RState} (i : Nat) (ro : Bool)
    (h : s'.objData? i = s.objData? i) :
    rawPassthrough s' i ro = rawPassthrough s i ro := by
  simp [rawPassthrough, RState.rawProp?, RState.flagIsReactive,
    proxyInfo?_congr i h]

/-! Branch equations for `createReactiveObject`. -/

theorem cro_nonObject (s : RState) (x : JSVal) (ro : Bool) (k : ProxyKind)
    (h : isObjectVal x = false) :
    createReactiveObject s x ro k = (x, s) := by
  cases x <;> first | rfl | (cases h)

theorem cro_rawPass (s : RState) (i : Nat) (ro : Bool) (k : ProxyKind)
    (h : rawPassthrough s i ro = true) :
    createReactiveObject s (.obj i) ro k = (.obj i, s) := by
  simp [createReactiveObject, h]

theorem cro_cached (s : RState) (i p : Nat) (ro : Bool) (k : ProxyKind)
    (h1 : rawPassthrough s i ro = false)
    (h2 : lookupMap (s.mapOf k) i = some p) :
    createReactiveObject s (.obj i) ro k = (.obj p, s) := by
  simp [createReactiveObject, h1, h2]

theorem cro_invalid (s : RState) (i : Nat) (ro : Bool) (k : ProxyKind)
    (h1 : rawPassthrough s i ro = false)
    (h2 : lookupMap (s.mapOf k) i = none)
    (h3 : s.getTargetType i = .invalid) :
    createReactiveObject s (.obj i) ro k = (.obj i, s) := by
  simp [createReactiveObject, h1, h2, h3]

theorem cro_create (s : RState) (i : Nat) (ro : Bool) (k : ProxyKind)
    (h1 : rawPassthrough s i ro = false)
    (h2 : lookupMap (s.mapOf k) i = none)
    (h3 : s.getTargetType i ≠ .invalid) :
    createReactiveObject s (.obj i) ro k =
      (.obj s.heap.length,
        RState.insertIntoMap
          { s with heap := s.heap ++ [mkProxyData s i ro k (s.getTargetType i)] }
          k i s.heap.length) := by
  cases h : s.getTargetType i with
  | invalid => exact absurd h h3
  | common => simp [createReactiveObject, h1, h2, h]
  | collection => simp [createReactiveObject, h1, h2, h]

/-- The state produced by a fresh proxy creation leaves every existing
object's heap entry alone. -/
theorem cro_create_objData (s : RState) (i j : Nat) (ro : Bool) (k : ProxyKind)
    (tt : TargetType) (hj : j < s.heap.length) :
    (RState.insertIntoMap
      { s with heap := s.heap ++ [mkProxyData s i ro k tt] }
      k i s.heap.length).objData? j = s.objData? j := by
  rw [objData?_insertIntoMap]
  exact objData?_extend _ _ _ hj

/-- `createReactiveObject` is idempotent in the sense of the proxy cache:
running it a second time, from the state the first call produced, returns
the very same proxy (or passed-through value) and leaves the state alone. -/
theorem createReactiveObject_idem (s : RState) (x : JSVal) (ro : Bool) (k : ProxyKind) :
    createReactiveObject (createReactiveObject s x ro k).2 x ro k =
      createReactiveObject s x ro k := by
  by_cases hobj : isObjectVal x = true
  case neg =>
    rw [cro_nonObject s x ro k (by simpa using hobj)]
    exact cro_nonObject s x ro k (by simpa using hobj)
  case pos =>
  obtain ⟨i, rfl⟩ : ∃ i, x = .obj i := by
    cases x <;> simp [isObjectVal] at hobj ⊢
  by_cases h1 : rawPassthrough s i ro = true
  · rw [cro_rawPass s i ro k h1]
    exact cro_rawPass s i ro k h1
  · replace h1 : rawPassthrough s i ro = false := by simpa using h1
    cases h2 : lookupMap (s.mapOf k) i with
    | some p =>
      rw [cro_cached s i p ro k h1 h2]
      exact cro_cached s i p ro k h1 h2
    | none =>
      cases h3 : s.getTargetType i with
      | invalid =>
        rw [cro_invalid s i ro k h1 h2 h3]
        exact cro_invalid s i ro k h1 h2 h3
      | common =>
        obtain ⟨d, hd⟩ := getTargetType_exists s i (by simp [h3])
        have hlt := objData?_lt s i d hd
        rw [cro_create s i ro k h1 h2 (by simp [h3])]
        have hsame := cro_create_objData s i i ro k (s.getTargetType i) hlt
        refine cro_cached _ i s.heap.length ro k ?_ ?_
        · rw [rawPassthrough_congr i ro hsame]; exact h1
        · rw [mapOf_insertIntoMap_self, mapOf_setHeap]
          exact lookupMap_cons_self _ i s.heap.length
      | collection =>
        obtain ⟨d, hd⟩ := getTargetType_exists s i (by simp [h3])
        have hlt := objData?_lt s i d hd
        rw [cro_create s i ro k h1 h2 (by simp [h3])]
        have hsame := cro_create_objData s i i ro k (s.getTargetType i) hlt
        refine cro_cached _ i s.heap.length ro k ?_ ?_
        · rw [rawPassthrough_congr i ro hsame]; exact h1
        · rw [mapOf_insertIntoMap_self, mapOf_setHeap]
          exact lookupMap_cons_self _ i s.heap.length

/-- `createReactiveObject` never changes the heap entry of an object that
already resolves on the heap. -/
theorem cro_objData_preserved (s : RState) (x : JSVal) (ro : Bool) (k : ProxyKind)
    (j : Nat) (hj : j < s.heap.length) :
    ((createReactiveObject s x ro k).2).objData? j = s.objData? j := by
  by_cases hobj : isObjectVal x = true
  case neg => rw [cro_nonObject s x ro k (by simpa using hobj)]
  case pos =>
  obtain ⟨i, rfl⟩ : ∃ i, x = .obj i := by
    cases x <;> simp [isObjectVal] at hobj ⊢
  by_cases h1 : rawPassthrough s i ro = true
  · rw [cro_rawPass s i ro k h1]
  · replace h1 : rawPassthrough s i ro = false := by simpa using h1
    cases h2 : lookupMap (s.mapOf k) i with
    | some p => rw [cro_cached s i p ro k h1 h2]
    | none =>
      cases h3 : s.getTargetType i with
      | invalid => rw [cro_invalid s i ro k h1 h2 h3]
      | common =>
        rw [cro_create s i ro k h1 h2 (by simp [h3])]
        exact cro_create_objData s i j ro k _ hj
      | collection =>
        rw [cro_create s i ro k h1 h2 (by simp [h3])]
        exact cro_create_objData s i j ro k _ hj

/-- The `isReadonly(target)` pre-check of `reactive` gives the same answer
on the same argument before and after a `createReactiveObject` call on it. -/
theorem isReadonlyVal_self_after_cro (s : RState) (i : Nat) (ro : Bool) (k : ProxyKind) :
    isReadonlyVal ((createReactiveObject s (.obj i) ro k).2) (.obj i) =
      isReadonlyVal s (.obj i) := by
  by_cases h1 : rawPassthrough s i ro = true
  · rw [cro_rawPass s i ro k h1]
  · replace h1 : rawPassthrough s i ro = false := by simpa using h1
    cases h2 : lookupMap (s.mapOf k) i with
    | some p => rw [cro_cached s i p ro k h1 h2]
    | none =>
      cases h3 : s.getTargetType i with
      | invalid => rw [cro_invalid s i ro k h1 h2 h3]
      | common =>
        obtain ⟨d, hd⟩ := getTargetType_exists s i (by simp [h3])
        rw [cro_create s i ro k h1 h2 (by simp [h3])]
        simp [isReadonlyVal, RState.flagIsReadonly,
          proxyInfo?_congr i (cro_create_objData s i i ro k _ (objData?_lt s i d hd))]
      | collection =>
        obtain ⟨d, hd⟩ := getTargetType_exists s i (by simp [h3])
        rw [cro_create s i ro k h1 h2 (by simp [h3])]
        simp [isReadonlyVal, RState.flagIsReadonly,
          proxyInfo?_congr i (cro_create_objData s i i ro k _ (objData?_lt s i d hd))]

/-- Each public creator, run twice on the same value, returns the identical
result the second time and leaves the state alone. -/
theorem creatorOf_idem (k : ProxyKind) (s : RState) (x : JSVal) :
    creatorOf k (creatorOf k s x).2 x = creatorOf k s x := by
  cases k with
  | shallowMutableK => exact createReactiveObject_idem s x false .shallowMutableK
  | readonlyK => exact createReactiveObject_idem s x true .readonlyK
  | shallowReadonlyK => exact createReactiveObject_idem s x true .shallowReadonlyK
  | mutableK =>
    show reactive (reactive s x).2 x = reactive s x
    unfold reactive
    by_cases hro : isReadonlyVal s x = true
    · simp [hro]
    · replace hro : isReadonlyVal s x = false := by simpa using hro
      simp only [hro, Bool.false_eq_true, if_false]
      have h2 : isReadonlyVal ((createReactiveObject s x false .mutableK).2) x = false := by
        cases x with
        | obj i => rw [isReadonlyVal_self_after_cro]; exact hro
        | undef => rfl
        | nullv => rfl
        | boolv b => rfl
        | num n => rfl
        | nan => rfl
        | str t => rfl
      simp only [h2, Bool.false_eq_true, if_false]
      exact createReactiveObject_idem s x false .mutableK

/-- Non-objects pass through every creator unchanged. -/
theorem creatorOf_nonObject (k : ProxyKind) (s : RState) (x : JSVal)
    (h : isObjectVal x = false) : creatorOf k s x = (x, s) := by
  cases k with
  | shallowMutableK => exact cro_nonObject s x false .shallowMutableK h
  | readonlyK => exact cro_nonObject s x true .readonlyK h
  | shallowReadonlyK => exact cro_nonObject s x true .shallowReadonlyK h
  | mutableK =>
    show reactive s x = (x, s)
    unfold reactive
    have hro : isReadonlyVal s x = false := by
      cases x <;> first | rfl | (exact absurd h (by simp [isObjectVal]))
    simp only [hro, Bool.false_eq_true, if_false]
    exact cro_nonObject s x false .mutableK h

/-- A proxy whose readonly classification matches the creator's returns
itself: the `target[RAW] && !(isReadonly && target[IS_REACTIVE])` early
return (or, for `reactive` on a readonly proxy, the readonly pre-check). -/
theorem creatorOf_matching_proxy (k : ProxyKind) (s : RState) (i : Nat)
    (info : ProxyInfo) (hp : s.proxyInfo? i = some info)
    (hro : info.isReadonly = k.isReadonly) :
    creatorOf k s (.obj i) = (.obj i, s) := by
  have hpass : ∀ ro : Bool, info.isReadonly = ro → rawPassthrough s i ro = true := by
    intro ro h
    cases ro <;>
      simp [rawPassthrough, RState.rawProp?, RState.flagIsReactive, hp, h]
  cases k with
  | shallowMutableK => exact cro_rawPass s i false .shallowMutableK (hpass false hro)
  | readonlyK => exact cro_rawPass s i true .readonlyK (hpass true hro)
  | shallowReadonlyK => exact cro_rawPass s i true .shallowReadonlyK (hpass true hro)
  | mutableK =>
    show reactive s (.obj i) = (.obj i, s)
    unfold reactive
    have : isReadonlyVal s (.obj i) = false := by
      simp [isReadonlyVal, RState.flagIsReadonly, hp, hro, ProxyKind.isReadonly]
    simp only [this, Bool.false_eq_true, if_false]
    exact cro_rawPass s i false .mutableK (hpass false hro)

/-- A skip-marked plain (non-proxy) object: the creators never allocate a
proxy for it; if no proxy was cached earlier, the argument itself comes
back. -/
theorem creatorOf_skip (k : ProxyKind) (s : RState) (i : Nat) (d : ObjData)
    (hd : s.objData? i = some d) (hskip : d.skip = true) (hpx : d.proxy = none) :
    (creatorOf k s (.obj i)).2 = s ∧
      (lookupMap (s.mapOf k) i = none → creatorOf k s (.obj i) = (.obj i, s)) := by
  have h1 : ∀ ro : Bool, rawPassthrough s i ro = false := by
    intro ro
    simp [rawPassthrough, RState.rawProp?, RState.proxyInfo?, hd, hpx]
  have h3 : s.getTargetType i = .invalid := by
    simp [RState.getTargetType, hd, hskip]
  have hcore : ∀ ro kk, (createReactiveObject s (.obj i) ro kk).2 = s ∧
      (lookupMap (s.mapOf kk) i = none →
        createReactiveObject s (.obj i) ro kk = (.obj i, s)) := by
    intro ro kk
    cases h2 : lookupMap (s.mapOf kk) i with
    | some p =>
      refine ⟨?_, fun hc => absurd hc (by simp)⟩
      rw [cro_cached s i p ro kk (h1 ro) h2]
    | none =>
      rw [cro_invalid s i ro kk (h1 ro) h2 h3]
      exact ⟨rfl, fun _ => rfl⟩
  cases k with
  | shallowMutableK => exact hcore false .shallowMutableK
  | readonlyK => exact hcore true .readonlyK
  | shallowReadonlyK => exact hcore true .shallowReadonlyK
  | mutableK =>
    show (reactive s (.obj i)).2 = s ∧
      (lookupMap (s.mapOf .mutableK) i = none → reactive s (.obj i) = (.obj i, s))
    have hro : isReadonlyVal s (.obj i) = false := by
      simp [isReadonlyVal, RState.flagIsReadonly, RState.proxyInfo?, hd, hpx]
    unfold reactive
    simp only [hro, Bool.false_eq_true, if_false]
    exact hcore false .mutableK

/-! ### Claim C7 -/

/-- A single plain extensible object, as allocated by application code. -/
def plainObjData : ObjData := ⟨false, true, .objectT, false, [], none⟩

/-- State with one plain object (id 0) and empty proxy registries. -/
def c7state0 : RState := ⟨[plainObjData], [], [], [], []⟩

/-- `reactive({})` has been called once: proxy id 1 is cached for raw id 0. -/
def c7state1 : RState := (reactive c7state0 (.obj 0)).2

/-- ... and afterwards the raw object was `markRaw`ed. -/
def c7state2 : RState := markRaw c7state1 0

/-- C7, counterexample to the claim as stated.  The claim demands that a
call on *every* object marked with the skip flag "returns its argument
unchanged rather than creating a proxy".  But if the object was made
reactive *before* being `markRaw`ed, the registry lookup comes first
(part_004:178-182) and hands back the cached proxy (`.obj 1`), not the
argument (`.obj 0`), even though the object is skip-marked. -/
theorem c7_skip_returns_cached_proxy :
    (c7state2.objData? 0).map (·.skip) = some true ∧
      reactive c7state2 (.obj 0) = (.obj 1, c7state2) ∧
      (JSVal.obj 1 ≠ JSVal.obj 0) := by
  refine ⟨by decide, by decide, by decide⟩

/-- C7 (amended): (1) identity stability — each of
`reactive`/`readonly`/`shallowReactive`/`shallowReadonly`, called twice on
the same value, returns the identical proxy (or passed-through value) the
second time without touching the state; (2) non-objects pass through
unchanged; (3) a proxy whose readonly classification matches the creator's
passes through unchanged; (4) a skip-marked plain object never gets a proxy
created for it (the state is unchanged), and, unless a proxy for it was
already cached before it was marked, the call returns the argument itself
(the cached-proxy exception is what the counterexample forces). -/
theorem proxy_identity_and_passthrough :
    (∀ k s x, creatorOf k (creatorOf k s x).2 x = creatorOf k s x) ∧
    (∀ k s x, isObjectVal x = false → creatorOf k s x = (x, s)) ∧
    (∀ k s i info, s.proxyInfo? i = some info →
      info.isReadonly = k.isReadonly → creatorOf k s (.obj i) = (.obj i, s)) ∧
    (∀ k s i d, s.objData? i = some d → d.skip = true → d.proxy = none →
      (creatorOf k s (.obj i)).2 = s ∧
        (lookupMap (s.mapOf k) i = none → creatorOf k s (.obj i) = (.obj i, s))) :=
  ⟨creatorOf_idem, creatorOf_nonObject,
    fun k s i info hp hro => creatorOf_matching_proxy k s i info hp hro,
    fun k s i d hd hskip hpx => creatorOf_skip k s i d hd hskip hpx⟩

/-- Witness for C7: concrete instantiations — double `reactive` on a fresh
object heap, a primitive passthrough, a matching-proxy passthrough, and a
skip-marked passthrough. -/
theorem proxy_identity_and_passthrough_witness :
    (creatorOf .mutableK (creatorOf .mutableK c7state0 (.obj 0)).2 (.obj 0) =
      creatorOf .mutableK c7state0 (.obj 0)) ∧
    (creatorOf .readonlyK c7state0 (.num 5) = (.num 5, c7state0)) ∧
    (creatorOf .mutableK c7state1 (.obj 1) = (.obj 1, c7state1)) ∧
    (creatorOf .shallowReadonlyK
      (⟨[{ plainObjData with skip := true }], [], [], [], []⟩ : RState) (.obj 0) =
      (.obj 0, ⟨[{ plainObjData with skip := true }], [], [], [], []⟩)) := by
  refine ⟨proxy_identity_and_passthrough.1 .mutableK c7state0 (.obj 0),
    proxy_identity_and_passthrough.2.1 .readonlyK c7state0 (.num 5) (by decide),
    proxy_identity_and_passthrough.2.2.1 .mutableK c7state1 1
      ⟨0, false, false, false⟩ (by decide) (by decide),
    (proxy_identity_and_passthrough.2.2.2 .shallowReadonlyK
      ⟨[{ plainObjData with skip := true }], [], [], [], []⟩ 0
      { plainObjData with skip := true } (by decide) (by decide) (by decide)).2
      (by decide)⟩

/-! ## References (packages/reactivity/index.js, `Reference` class) -/

/-- The fields of a `Reference`: the shallow flag, the (possibly
reactive-wrapped) value, the raw value, and its Dep (the subscribed effect
ids; `dep` starts `undefined`, modelled as the empty list). -/
structure RefState where
  isShallow : Bool
  value : JSVal
  rawValue : JSVal
  dep : List Nat
deriving DecidableEq, Repr

/-- The `Reference` constructor (index.js:486-490):
`#value = isShallow ? rawValue : toReactive(rawValue)`,
`#rawValue = isShallow ? rawValue : toRaw(rawValue)`. -/
def mkReference (s : RState) (rawValue : JSVal) (isShallow : Bool) : RefState × RState :=
  if isShallow then (⟨true, rawValue, rawValue, []⟩, s)
  else
    let (v, s') := toReactive s rawValue
    (⟨false, v, toRaw s' rawValue, []⟩, s')

/-- `triggerRefValue` (ref.js:384-390): `ref = toRaw(ref)` (references are
not proxied in the scenarios modelled here), and if the Dep exists its
effects are handed to `triggerEffects`.  We record the Dep handed over:
these are exactly the subscribers that get invoked. -/
def triggerRefValue (r : RefState) : List Nat := r.dep

/-- The `value` setter (index.js:506-514):
`newVal = isShallow ? newVal : toRaw(newVal)`; if `hasChanged(newVal,
rawValue)` the raw and wrapped values are updated and the Dep triggered,
otherwise nothing happens.  Returns the new module state, the new ref
fields and the Dep passed to `triggerEffects` (empty when not triggered). -/
def setRefValue (s : RState) (r : RefState) (newVal : JSVal) :
    RState × RefState × List Nat :=
  let newVal' := if r.isShallow then newVal else toRaw s newVal
  if hasChanged newVal' r.rawValue then
    if r.isShallow then
      (s, { r with rawValue := newVal', value := newVal' }, triggerRefValue r)
    else
      let (v, s') := toReactive s newVal'
      (s', { r with rawValue := newVal', value := v }, triggerRefValue r)
  else (s, r, [])

/-! ### Claim C6 -/

/-- C6: writes through a ref are gated by `hasChanged` against the stored
raw value: (1) a write judged unchanged — in particular a NaN write onto a
stored NaN, since `hasChanged` treats `NaN === NaN` as unchanged — leaves
the ref and the module state untouched and triggers no subscriber;
(2) a write judged changed stores the normalized new value as the raw value
and hands the ref's full Dep to `triggerEffects`. -/
theorem ref_nan_write_stability :
    (∀ s r v, hasChanged (if r.isShallow then v else toRaw s v) r.rawValue = false →
      setRefValue s r v = (s, r, [])) ∧
    (∀ s r, r.rawValue = .nan → setRefValue s r .nan = (s, r, [])) ∧
    (∀ s r v, hasChanged (if r.isShallow then v else toRaw s v) r.rawValue = true →
      (setRefValue s r v).2.1.rawValue = (if r.isShallow then v else toRaw s v) ∧
      (setRefValue s r v).2.2 = r.dep) := by
  refine ⟨?_, ?_, ?_⟩
  · intro s r v h
    simp only [setRefValue, h, Bool.false_eq_true, if_false]
  · intro s r h
    have hnv : (if r.isShallow then JSVal.nan else toRaw s .nan) = .nan := by
      cases r.isShallow <;> rfl
    have hch : hasChanged .nan .nan = false := rfl
    simp only [setRefValue, hnv, h, hch, Bool.false_eq_true, if_false]
  · intro s r v h
    simp only [setRefValue, h, if_true]
    cases hs : r.isShallow <;> simp [triggerRefValue]

/-- Witness for C6: a deep ref holding NaN with one subscriber: writing NaN
again changes nothing and notifies nobody; writing `1` stores `1` and
notifies the subscriber. -/
theorem ref_nan_write_stability_witness :
    setRefValue c7state0 ⟨false, .nan, .nan, [7]⟩ .nan =
      (c7state0, ⟨false, .nan, .nan, [7]⟩, []) ∧
    (setRefValue c7state0 ⟨false, .nan, .nan, [7]⟩ (.num 1)).2.1.rawValue = .num 1 ∧
    (setRefValue c7state0 ⟨false, .nan, .nan, [7]⟩ (.num 1)).2.2 = [7] := by
  refine ⟨ref_nan_write_stability.2.1 c7state0 ⟨false, .nan, .nan, [7]⟩ rfl, ?_, ?_⟩
  · exact (ref_nan_write_stability.2.2 c7state0 ⟨false, .nan, .nan, [7]⟩ (.num 1)
      (by decide)).1
  · exact (ref_nan_write_stability.2.2 c7state0 ⟨false, .nan, .nan, [7]⟩ (.num 1)
      (by decide)).2

/-! ## Base proxy handlers (packages/reactivity/index.js, baseHandlers) -/

/-- The `trigger` calls a trap emits. -/
inductive TrigEvent where
  | addKey (target : Nat) (key : String)
  | setKey (target : Nat) (key : String)
  | delKey (target : Nat) (key : String)
  | refWrite (target : Nat) (key : String)
deriving DecidableEq, Repr

def getProp (d : ObjData) (key : String) : JSVal :=
  ((d.props.find? (·.1 == key)).map (·.2)).getD .undef

def hasOwnProp (d : ObjData) (key : String) : Bool :=
  (d.props.find? (·.1 == key)).isSome

def setProp (d : ObjData) (key : String) (v : JSVal) : ObjData :=
  if hasOwnProp d key then
    { d with props := d.props.map (fun e => if e.1 == key then (key, v) else e) }
  else
    { d with props := d.props ++ [(key, v)] }

def delProp (d : ObjData) (key : String) : ObjData :=
  { d with props := d.props.filter (fun e => !(e.1 == key)) }

/-- Reading `value[ReactiveFlags.IS_SHALLOW]`. -/
def RState.flagIsShallow (s : RState) (i : Nat) : Bool :=
  match s.proxyInfo? i with
  | some info => info.shallow
  | none => false

/-- `isShallow` (part_004:228). -/
def isShallowVal (s : RState) : JSVal → Bool
  | .obj i => s.flagIsShallow i
  | _ => false

/-- The tail of `createSetter` (index.js:232-245): compute `hadKey`
(modelled for plain objects via `hasOwn`; the array integer-key variant
compares against `length`), perform `Reflect.set`, and — since the write
goes through the object's own proxy, `target === toRaw(receiver)` — emit
ADD for a new key, SET for a changed value, nothing otherwise. -/
def setCore (s : RState) (t : Nat) (d : ObjData) (key : String)
    (value oldValue : JSVal) : Bool × RState × List TrigEvent :=
  let hadKey := hasOwnProp d key
  let s' := { s with heap := s.heap.set t (setProp d key value) }
  if !hadKey then (true, s', [.addKey t key])
  else if hasChanged value oldValue then (true, s', [.setKey t key])
  else (true, s', [])

/-- `createSetter` (index.js:211-247), acting on the raw target `t` of a
mutable proxy.  The ref-unwrap branch (`oldValue.value = value` when the
stored old value is a ref and the new one is not) delegates to the ref box,
which lives outside the modelled heap: it is recorded as a `refWrite`
event. -/
def mutableSet (s : RState) (t : Nat) (key : String) (value : JSVal)
    (shallow : Bool) : Bool × RState × List TrigEvent :=
  match s.objData? t with
  | none => (false, s, [])
  | some d =>
    let oldValue := getProp d key
    if isReadonlyVal s oldValue && isRefVal s oldValue && !isRefVal s value then
      (false, s, [])
    else if !shallow && !isReadonlyVal s value then
      let pair :=
        if !isShallowVal s value then (toRaw s value, toRaw s oldValue)
        else (value, oldValue)
      if !(d.jstype == .arrayT) && isRefVal s pair.2 && !isRefVal s pair.1 then
        (true, s, [.refWrite t key])
      else setCore s t d key pair.1 pair.2
    else setCore s t d key value oldValue

/-- `deleteProperty` (index.js:258-267) on the raw target of a mutable
proxy: `Reflect.deleteProperty` (always succeeds on the configurable
properties modelled here) and a DELETE trigger when the key existed. -/
def mutableDeleteProperty (s : RState) (t : Nat) (key : String) :
    Bool × RState × List TrigEvent :=
  match s.objData? t with
  | none => (true, s, [])
  | some d =>
    let hadKey := hasOwnProp d key
    let s' := { s with heap := s.heap.set t (delProp d key) }
    if hadKey then (true, s', [.delKey t key]) else (true, s', [])

/-- A property assignment through one of the registered proxies, dispatched
on its handler set: `readonlyHandlers.set`/`shallowReadonlyHandlers.set`
(index.js:312-320 and 339-345) is `set() { return true }` — it touches
nothing; mutable proxies run `createSetter`'s logic against the raw
target. -/
def proxySet (s : RState) (p : Nat) (key : String) (v : JSVal) :
    Bool × RState × List TrigEvent :=
  match s.proxyInfo? p with
  | none => (false, s, [])
  | some info =>
    if info.isReadonly then (true, s, [])
    else mutableSet s info.target key v info.shallow

/-- A property deletion through one of the registered proxies:
`readonlyHandlers.deleteProperty` is `deleteProperty() { return true }`. -/
def proxyDeleteProperty (s : RState) (p : Nat) (key : String) :
    Bool × RState × List TrigEvent :=
  match s.proxyInfo? p with
  | none => (false, s, [])
  | some info =>
    if info.isReadonly then (true, s, [])
    else mutableDeleteProperty s info.target key

/-! ### Claim C10 -/

/-- C10: writes and deletes through a readonly (or shallow-readonly) proxy
are silent no-ops: the trap reports success (`true`, so no TypeError is
thrown), yet the heap — in particular the raw target object — is left
completely unchanged and no trigger event is emitted.  Moreover the
proxies `readonly()`/`shallowReadonly()` freshly create over a plain object
are exactly such proxies. -/
theorem readonly_write_silent_noop :
    (∀ s p key v info, s.proxyInfo? p = some info → info.isReadonly = true →
      proxySet s p key v = (true, s, []) ∧
      proxyDeleteProperty s p key = (true, s, [])) ∧
    (∀ s i, rawPassthrough s i true = false →
      lookupMap s.readonlyMap i = none → s.getTargetType i = .common →
      ((readonly s (.obj i)).2.proxyInfo? ((readonly s (.obj i)).1.objId?.getD 0)
        = some ⟨i, true, false, false⟩)) := by
  constructor
  · intro s p key v info hp hro
    constructor
    · simp [proxySet, hp, hro]
    · simp [proxyDeleteProperty, hp, hro]
  · intro s i h1 h2 h3
    rw [readonly, cro_create s i true .readonlyK h1 h2 (by simp [h3])]
    simp only [h3]
    have : (RState.insertIntoMap
        { s with heap := s.heap ++ [mkProxyData s i true .readonlyK .common] }
        .readonlyK i s.heap.length).objData? s.heap.length =
        some (mkProxyData s i true .readonlyK .common) := by
      rw [objData?_insertIntoMap]
      simp [RState.objData?]
    simp only [JSVal.objId?, Option.getD_some, RState.proxyInfo?]
    rw [this]
    simp [mkProxyData, ProxyKind.shallow]

/-- The state after `readonly()` was called on the plain object 0. -/
def c10state : RState := (readonly c7state0 (.obj 0)).2

/-- Witness for C10: the concrete readonly proxy (id 1) over object 0 —
assignment and deletion report success, change nothing, trigger nothing. -/
theorem readonly_write_silent_noop_witness :
    (proxySet c10state 1 "x" (.num 1) = (true, c10state, []) ∧
      proxyDeleteProperty c10state 1 "x" = (true, c10state, [])) ∧
    (c10state.proxyInfo? ((readonly c7state0 (.obj 0)).1.objId?.getD 0) =
      some ⟨0, true, false, false⟩) :=
  ⟨readonly_write_silent_noop.1 c10state 1 "x" (.num 1) ⟨0, true, false, false⟩
      (by decide) rfl,
    readonly_write_silent_noop.2 c7state0 0 (by decide) (by decide) (by decide)⟩

/-! ## Instrumented array search methods (index.js:100-120) -/

/-- `Array.prototype.includes` on the raw array (SameValueZero). -/
def jsIncludes (arr : List JSVal) (v : JSVal) : Bool :=
  arr.any (fun x => sameValueZero x v)

/-- `Array.prototype.indexOf` on the raw array (`===`); `-1` when absent. -/
def jsIndexOf (arr : List JSVal) (v : JSVal) : Int :=
  match arr.findIdx? (fun x => strictEq x v) with
  | some i => (i : Int)
  | none => -1

/-- `Array.prototype.lastIndexOf` on the raw array. -/
def jsLastIndexOf (arr : List JSVal) (v : JSVal) : Int :=
  match arr.reverse.findIdx? (fun x => strictEq x v) with
  | some i => (arr.length - 1 - i : Int)
  | none => -1

/-- The keys the instrumented search methods track before delegating:
`this.length` is read through the proxy (tracking `"length"`), then
`track(arr, GET, String(i))` for every index `i` (index.js:108-110). -/
def arraySearchTracked (arr : List JSVal) : List String :=
  "length" :: (List.range arr.length).map toString

/-- The instrumented `includes` (index.js:104-119): search the raw array
with the given argument; if that fails, search again with the raw
(`toRaw`) form of the argument.  Returns the tracked keys and the result. -/
def arrayIncludesOp (s : RState) (arr : List JSVal) (v : JSVal) :
    List String × Bool :=
  (arraySearchTracked arr,
    let res := jsIncludes arr v
    if res = false then jsIncludes arr (toRaw s v) else res)

/-- The instrumented `indexOf` (same wrapper, `res === -1` retry). -/
def arrayIndexOfOp (s : RState) (arr : List JSVal) (v : JSVal) :
    List String × Int :=
  (arraySearchTracked arr,
    let res := jsIndexOf arr v
    if res = -1 then jsIndexOf arr (toRaw s v) else res)

/-- The instrumented `lastIndexOf`. -/
def arrayLastIndexOfOp (s : RState) (arr : List JSVal) (v : JSVal) :
    List String × Int :=
  (arraySearchTracked arr,
    let res := jsLastIndexOf arr v
    if res = -1 then jsLastIndexOf arr (toRaw s v) else res)

/-! ### Claim C8 -/

theorem jsIncludes_of_mem (arr : List JSVal) (v x : JSVal)
    (hx : x ∈ arr) (he : strictEq x v = true) : jsIncludes arr v = true := by
  refine List.any_eq_true.mpr ⟨x, hx, ?_⟩
  cases x <;> cases v <;> first | exact he | rfl

theorem jsIndexOf_nonneg_of_mem (arr : List JSVal) (v x : JSVal)
    (hx : x ∈ arr) (he : strictEq x v = true) : 0 ≤ jsIndexOf arr v := by
  have : (arr.findIdx? (fun x => strictEq x v)).isSome := by
    rw [List.findIdx?_isSome]
    exact List.any_eq_true.mpr ⟨x, hx, he⟩
  unfold jsIndexOf
  cases h : arr.findIdx? (fun x => strictEq x v) with
  | some i => exact Int.ofNat_nonneg i
  | none => rw [h] at this; cases this

theorem jsLastIndexOf_nonneg_of_mem (arr : List JSVal) (v x : JSVal)
    (hx : x ∈ arr) (he : strictEq x v = true) : 0 ≤ jsLastIndexOf arr v := by
  have hsome : (arr.reverse.findIdx? (fun x => strictEq x v)).isSome := by
    rw [List.findIdx?_isSome]
    exact List.any_eq_true.mpr ⟨x, by simpa using hx, he⟩
  unfold jsLastIndexOf
  cases h : arr.reverse.findIdx? (fun x => strictEq x v) with
  | some i =>
    have hi : i < arr.length := by
      have := List.findIdx?_eq_some_iff_findIdx_eq.mp h
      simpa using this.1
    show 0 ≤ (arr.length : Int) - 1 - i
    omega
  | none => rw [h] at hsome; cases hsome

/-- C8: each instrumented search method (1) tracks the `length` key and
every index of the array, and (2) first searches the raw array with the
given argument and, on failure (`false`/`-1`), retries with the `toRaw`
form of the argument — hence a search for a value whose raw form is
strictly-equal to some element of the raw array succeeds. -/
theorem array_search_raw_fallback :
    (∀ arr : List JSVal, ∀ i < arr.length,
      toString i ∈ arraySearchTracked arr ∧ "length" ∈ arraySearchTracked arr) ∧
    (∀ s arr v x, x ∈ arr → strictEq x (toRaw s v) = true →
      (arrayIncludesOp s arr v).2 = true ∧
      0 ≤ (arrayIndexOfOp s arr v).2 ∧
      0 ≤ (arrayLastIndexOfOp s arr v).2) := by
  constructor
  · intro arr i hi
    refine ⟨?_, by simp [arraySearchTracked]⟩
    simp only [arraySearchTracked, List.mem_cons, List.mem_map]
    exact Or.inr ⟨i, by simpa using hi, rfl⟩
  · intro s arr v x hx he
    refine ⟨?_, ?_, ?_⟩
    · simp only [arrayIncludesOp]
      cases h : jsIncludes arr v with
      | true => simp [h]
      | false => simpa [h] using jsIncludes_of_mem arr (toRaw s v) x hx he
    · simp only [arrayIndexOfOp]
      by_cases h : jsIndexOf arr v = -1
      · simpa [h] using jsIndexOf_nonneg_of_mem arr (toRaw s v) x hx he
      · have : 0 ≤ jsIndexOf arr v := by
          unfold jsIndexOf at h ⊢
          cases hf : arr.findIdx? (fun x => strictEq x v) with
          | some i => exact Int.ofNat_nonneg i
          | none => rw [hf] at h; exact absurd rfl h
        simpa [h] using this
    · simp only [arrayLastIndexOfOp]
      by_cases h : jsLastIndexOf arr v = -1
      · simpa [h] using jsLastIndexOf_nonneg_of_mem arr (toRaw s v) x hx he
      · have : 0 ≤ jsLastIndexOf arr v := by
          unfold jsLastIndexOf at h ⊢
          cases hf : arr.reverse.findIdx? (fun x => strictEq x v) with
          | some i =>
            have hi : i < arr.length := by
              have := List.findIdx?_eq_some_iff_findIdx_eq.mp hf
              simpa using this.1
            show 0 ≤ (arr.length : Int) - 1 - i
            omega
          | none => rw [hf] at h; exact absurd rfl h
        simpa [h] using this

/-- Witness for C8: the raw array `[obj 0]` searched for its reactive proxy
`obj 1` (`c7state1` maps raw 0 to proxy 1): all three searches succeed, and
index 0 plus `length` are tracked. -/
theorem array_search_raw_fallback_witness :
    (toString 0 ∈ arraySearchTracked [JSVal.obj 0] ∧
      "length" ∈ arraySearchTracked [JSVal.obj 0]) ∧
    ((arrayIncludesOp c7state1 [JSVal.obj 0] (.obj 1)).2 = true ∧
      0 ≤ (arrayIndexOfOp c7state1 [JSVal.obj 0] (.obj 1)).2 ∧
      0 ≤ (arrayLastIndexOfOp c7state1 [JSVal.obj 0] (.obj 1)).2) :=
  ⟨array_search_raw_fallback.1 [JSVal.obj 0] 0 (by decide),
    array_search_raw_fallback.2 c7state1 [JSVal.obj 0] (.obj 1) (.obj 0)
      (by decide) (by decide)⟩

/-! ## Component registration (src/runtime/component.js:644-659 and
unnamed/part_009:729-746; both copies are identical) -/

/-- A component class as far as registration inspects it: its static `tag`
(`none` models an absent field) and the constructor's identity. -/
structure CompDef where
  tag : Option String
  cid : Nat
deriving DecidableEq, Repr

/-- JS falsiness of the `tag` field: `undefined` or the empty string. -/
def tagFalsy : Option String → Bool
  | none => true
  | some t => t.isEmpty

/-- `registerComponent`.  The `Except` result makes throwing expressible:
`.error` would be a synchronous exception, `.ok` a normal return carrying
the new registry together with the `console.error` messages emitted.  The
source never throws on this path: a missing tag or a tag without `"-"`
logs an error (`console.error`) and skips registration; an already
registered tag is silently skipped; otherwise the component is finalized
and stored (and, for HTMLElement subclasses, `customElements.define`d —
outside this model). -/
def registerComponent (reg : List (String × Nat)) (c : CompDef) :
    Except String (List (String × Nat) × List String) :=
  if tagFalsy c.tag then
    .ok (reg, ["Missing static tag field in component"])
  else
    match c.tag with
    | none => .ok (reg, ["Missing static tag field in component"])
    | some t =>
      -- tag.indexOf("-") < 0, i.e. no hyphen occurs in the tag
      if !(t.data.contains '-') then
        .ok (reg, ["Missing \x22-\x22 in component tag"])
      else if (reg.find? (fun e => e.1 == t)).isSome then
        .ok (reg, [])
      else
        .ok (reg ++ [(t, c.cid)], [])

/-! ### Claim C9 -/

/-- C9, counterexample to the claim as stated.  Registering a component
whose tag is `"badtag"` (no hyphen) does *not* throw: the call returns
normally (`.ok`), logging a console error, with the registry unchanged. -/
theorem c9_register_does_not_throw :
    registerComponent [] ⟨some "badtag", 0⟩ =
      .ok ([], ["Missing \x22-\x22 in component tag"]) ∧
    (registerComponent [] ⟨some "badtag", 0⟩).isOk = true ∧
    registerComponent [] ⟨none, 1⟩ =
      .ok ([], ["Missing static tag field in component"]) := by
  refine ⟨rfl, rfl, rfl⟩

/-- C9 (amended): registering a component whose static tag is missing (or
empty) or lacks a hyphen reports a `console.error` and leaves the registry
unchanged — the component is not added — but no exception is thrown: the
call returns normally with exactly one logged error. -/
theorem register_bad_tag_rejected :
    (∀ reg c, tagFalsy c.tag = true →
      registerComponent reg c =
        .ok (reg, ["Missing static tag field in component"])) ∧
    (∀ reg c t, c.tag = some t → tagFalsy c.tag = false →
      t.data.contains '-' = false →
      registerComponent reg c =
        .ok (reg, ["Missing \x22-\x22 in component tag"])) := by
  constructor
  · intro reg c h
    simp [registerComponent, h]
  · intro reg c t ht h hh
    rw [ht] at h
    simp only [registerComponent, h, ht, Bool.false_eq_true, if_false, hh,
      Bool.not_false, if_true]

/-- Witness for C9: the two concrete rejections. -/
theorem register_bad_tag_rejected_witness :
    registerComponent [("x-y", 9)] ⟨none, 0⟩ =
      .ok ([("x-y", 9)], ["Missing static tag field in component"]) ∧
    registerComponent [("x-y", 9)] ⟨some "badtag", 0⟩ =
      .ok ([("x-y", 9)], ["Missing \x22-\x22 in component tag"]) :=
  ⟨register_bad_tag_rejected.1 [("x-y", 9)] ⟨none, 0⟩ rfl,
    register_bad_tag_rejected.2 [("x-y", 9)] ⟨some "badtag", 0⟩ "badtag"
      rfl rfl rfl⟩

/-! ## triggerEffects: the two effect modules

The repository carries two generations of the effect module.  The newer
one (unnamed/part_007, used by packages/reactivity) runs computed-backed
effects in a first pass and plain effects in a second; the older one
(unnamed/part_013) iterates the Dep once in insertion order. -/

/-- An effect as `triggerEffects` inspects it: identity, whether it backs a
computed ref (`effect.computed`), `allowRecurse`, and whether it has a
scheduler. -/
structure EffInfo where
  eid : Nat
  computed : Bool
  allowRecurse : Bool
  hasScheduler : Bool
deriving DecidableEq, Repr

/-- One invocation record: which effect was notified, through which path
(`scheduler()` or `run()`), and its computed flag. -/
inductive Invocation where
  | viaScheduler (eid : Nat) (computed : Bool)
  | viaRun (eid : Nat) (computed : Bool)
deriving DecidableEq, Repr

def Invocation.isComputed : Invocation → Bool
  | .viaScheduler _ c => c
  | .viaRun _ c => c

/-- `triggerEffect` (part_007:445-453): skip the currently active effect
unless it allows recursion; prefer the scheduler over a direct run.  The
identity test `effect !== activeEffect` is modelled on effect ids. -/
def triggerEffectOne (active : Option Nat) (e : EffInfo) : List Invocation :=
  if some e.eid ≠ active || e.allowRecurse then
    [if e.hasScheduler then .viaScheduler e.eid e.computed
     else .viaRun e.eid e.computed]
  else []

/-- `triggerEffects` of part_007:425-439: two passes over the collected
effects, computed-backed effects first, plain effects second. -/
def triggerEffectsNew (dep : List EffInfo) (active : Option Nat) : List Invocation :=
  ((dep.filter (·.computed)).map (triggerEffectOne active)).flatten ++
    ((dep.filter (fun e => !e.computed)).map (triggerEffectOne active)).flatten

/-- `triggerEffects` of part_013:409-419: a single pass in Dep iteration
order, with the same per-effect guard inline. -/
def triggerEffectsOld (dep : List EffInfo) (active : Option Nat) : List Invocation :=
  (dep.map (triggerEffectOne active)).flatten

/-! ### Claim C2 -/

/-- In the new module's trace, computed invocations form a prefix. -/
theorem triggerEffectsNew_computed_prefix (dep : List EffInfo) (active : Option Nat)
    (i j : Nat) (hij : i ≤ j) (hj : j < (triggerEffectsNew dep active).length)
    (hcj : ((triggerEffectsNew dep active).getD j (.viaRun 0 false)).isComputed = true) :
    ((triggerEffectsNew dep active).getD i (.viaRun 0 false)).isComputed = true := by
  have hall : ∀ tr : List Invocation,
      (∀ x ∈ tr, x.isComputed = true) →
      ∀ rest : List Invocation, (∀ x ∈ rest, x.isComputed = false) →
      ∀ i j : Nat, i ≤ j → j < (tr ++ rest).length →
      (((tr ++ rest).getD j (.viaRun 0 false)).isComputed = true) →
      (((tr ++ rest).getD i (.viaRun 0 false)).isComputed = true) := by
    intro tr htr rest hrest i j hij hj hcj
    by_cases hi : i < tr.length
    · have h1 : (tr ++ rest).getD i (.viaRun 0 false) = tr[i] := by
        simp [List.getD, List.getElem?_append_left hi, List.getElem?_eq_getElem hi]
      rw [h1]
      exact htr _ (List.getElem_mem hi)
    · exfalso
      have hjtr : tr.length ≤ j := Nat.le_trans (Nat.le_of_not_lt hi) hij
      have hjr : j - tr.length < rest.length := by
        rw [List.length_append] at hj
        omega
      have h2 : (tr ++ rest).getD j (.viaRun 0 false) = rest[j - tr.length] := by
        simp [List.getD, List.getElem?_append_right hjtr,
          List.getElem?_eq_getElem hjr]
      rw [h2] at hcj
      have := hrest _ (List.getElem_mem hjr)
      rw [this] at hcj
      cases hcj
  refine hall _ ?_ _ ?_ i j hij hj hcj
  · intro x hx
    rw [List.mem_flatten] at hx
    obtain ⟨l, hl, hxl⟩ := hx
    rw [List.mem_map] at hl
    obtain ⟨e, he, rfl⟩ := hl
    have hec : e.computed = true := (List.mem_filter.mp he).2
    unfold triggerEffectOne at hxl
    split at hxl
    · simp only [List.mem_singleton] at hxl
      subst hxl
      cases he' : e.hasScheduler <;> simp [he', Invocation.isComputed, hec]
    · cases hxl
  · intro x hx
    rw [List.mem_flatten] at hx
    obtain ⟨l, hl, hxl⟩ := hx
    rw [List.mem_map] at hl
    obtain ⟨e, he, rfl⟩ := hl
    have hec : e.computed = false := by
      have := (List.mem_filter.mp he).2
      simpa using this
    unfold triggerEffectOne at hxl
    split at hxl
    · simp only [List.mem_singleton] at hxl
      subst hxl
      cases he' : e.hasScheduler <;> simp [he', Invocation.isComputed, hec]
    · cases hxl

/-- C2, counterexample to the claim as stated.  The claim quantifies over
"every Dep passed to triggerEffects", and the repository's older effect
module (part_013:409-419) also defines `triggerEffects` — cited by the
claim itself — which preserves Dep iteration order: for a Dep holding a
plain effect (id 0) ahead of a computed effect (id 1), the plain effect is
invoked first. -/
theorem c2_old_triggerEffects_plain_first :
    triggerEffectsOld [⟨0, false, false, false⟩, ⟨1, true, false, true⟩] none =
      [.viaRun 0 false, .viaScheduler 1 true] ∧
    (Invocation.viaRun 0 false).isComputed = false := by
  refine ⟨rfl, rfl⟩

/-- C2 (amended): in the `triggerEffects` of the newer effect module
(part_007:425-439) every computed effect's scheduler/run is invoked before
any plain effect's, for every Dep and every active effect; the
`triggerEffects` of the older module (part_013:409-419) instead invokes
effects in Dep iteration order (single pass), as the counterexample shows.
Stated positionally: any invocation at or before a computed invocation is
itself computed. -/
theorem triggerEffects_computed_before_plain (dep : List EffInfo)
    (active : Option Nat) (i j : Nat) (hij : i ≤ j)
    (hj : j < (triggerEffectsNew dep active).length)
    (hcj : ((triggerEffectsNew dep active).getD j (.viaRun 0 false)).isComputed = true) :
    ((triggerEffectsNew dep active).getD i (.viaRun 0 false)).isComputed = true :=
  triggerEffectsNew_computed_prefix dep active i j hij hj hcj

/-- Witness for C2: the same two-effect Dep through the new module — the
computed effect (id 1) is scheduled first, the plain one runs second. -/
theorem triggerEffects_computed_before_plain_witness :
    triggerEffectsNew [⟨0, false, false, false⟩, ⟨1, true, false, true⟩] none =
      [.viaScheduler 1 true, .viaRun 0 false] ∧
    ((triggerEffectsNew [⟨0, false, false, false⟩, ⟨1, true, false, true⟩]
        none).getD 0 (.viaRun 0 false)).isComputed = true :=
  ⟨rfl, triggerEffects_computed_before_plain
    [⟨0, false, false, false⟩, ⟨1, true, false, true⟩] none 0 0
    (Nat.le_refl 0) (by decide) (by decide)⟩

/-! ## Scheduler (packages/runtime/src/scheduler.js) -/

/-- A job as the scheduler sees it: an identity (JS object identity, for
`includes`-deduplication), the optional numeric `id`, the `active` flag and
`allowRecurse`. -/
structure SJob where
  jid : Nat
  nid : Option Nat
  active : Bool
  allowRecurse : Bool
deriving DecidableEq, Repr

instance : Inhabited SJob := ⟨⟨0, none, true, false⟩⟩

/-- The sort comparator `(a, b) => getId(a) - getId(b)` (scheduler.js:218,
getId at 205-207 maps a missing id to `Infinity`), as a boolean
"a comes no later than b": numeric ids by `≤`, a numeric id before a
missing one, two missing ids tie (the comparator yields `NaN`, treated as
equal by `Array.prototype.sort`). -/
def jobLe (a b : SJob) : Bool :=
  match a.nid, b.nid with
  | some x, some y => x ≤ y
  | some _, none => true
  | none, some _ => false
  | none, none => true

/-- `getId(queue[middle]) < id` inside `findInsertionIndex`: `Infinity < id`
is false. -/
def jobIdLt (a : Option Nat) (b : Nat) : Bool :=
  match a with
  | some x => x < b
  | none => false

/-- The binary-search loop of `findInsertionIndex` (scheduler.js:47-63),
with explicit fuel (each iteration shrinks `stop - start`, so
`q.length + 1` steps always reach the exit condition).  `start` begins at
`flushIndex + 1`; outside a flush `flushIndex = 0`. -/
def fiiGo (q : List SJob) (id : Nat) : Nat → Nat → Nat → Nat
  | 0, start, _ => start
  | fuel + 1, start, stop =>
    if start < stop then
      let middle := (start + stop) / 2
      if jobIdLt (q.getD middle default).nid id then fiiGo q id fuel (middle + 1) stop
      else fiiGo q id fuel start middle
    else start

/-- `findInsertionIndex` (scheduler.js:47-63), outside a flush. -/
def findInsertionIndex (q : List SJob) (id : Nat) : Nat :=
  fiiGo q id (q.length + 1) 1 q.length

/-- `queue.splice(idx, 0, job)`. -/
def spliceInsert (q : List SJob) (idx : Nat) (job : SJob) : List SJob :=
  q.take idx ++ job :: q.drop idx

/-- `queueJob` (scheduler.js:69-91), outside a flush (`isFlushing` false,
`flushIndex` 0, `currentPreFlushParentJob` null): dedupe by identity over
the whole queue, then either push (no id) or insert at the
binary-searched position. -/
def queueJob (q : List SJob) (job : SJob) : List SJob :=
  if q.length = 0 || !q.contains job then
    match job.nid with
    | none => q ++ [job]
    | some i => spliceInsert q (findInsertionIndex q i) job
  else q

/-- The comparator as a decidable relation. -/
def jobLeP (a b : SJob) : Prop := jobLe a b = true

instance : DecidableRel jobLeP := fun a b => instDecidableEqBool (jobLe a b) true

/-- `queue.sort((a, b) => getId(a) - getId(b))` (scheduler.js:218).
JS `Array.prototype.sort` is a stable sort, and a stable sort by a total
preorder is extensionally unique, so it is modelled by a stable sort
(insertion sort). -/
def sortJobs (q : List SJob) : List SJob := q.insertionSort jobLeP

/-- The main loop of `flushJobs` (scheduler.js:221-227): run every job of
the sorted queue whose `active !== false`.  Jobs are inert here (modelled
jobs schedule no further work), so the executed trace is the filtered
sorted queue. -/
def flushMainTrace (q : List SJob) : List SJob :=
  (sortJobs q).filter (·.active)

/-- The scheduler's queues: the main job queue and the two pending
callback queues. -/
structure Sched where
  queue : List SJob
  pendingPre : List SJob
  pendingPost : List SJob
deriving DecidableEq, Repr

/-- `[...new Set(xs)]`: first occurrences, in order. -/
def dedupeFirstAux (seen : List SJob) : List SJob → List SJob
  | [] => []
  | x :: xs =>
    if x ∈ seen then dedupeFirstAux seen xs
    else x :: dedupeFirstAux (x :: seen) xs

def dedupeFirst (l : List SJob) : List SJob := dedupeFirstAux [] l

/-- `queueCallback` (scheduler.js:122-134) for a single callback outside a
flush: the active queue is null, so the callback is pushed onto the given
pending queue. -/
def queueCallback (cb : SJob) (pendingQueue : List SJob) : List SJob :=
  pendingQueue ++ [cb]

/-- `queuePreFlushCallback` (scheduler.js:140-142).  NOTE, faithful to the
source: the queue it passes as the pending queue is
`pendingPostFlushCallbacks`, not `pendingPreFlushCallbacks` —
`queueCallback(cb, activePreFlushCallbacks, pendingPostFlushCallbacks,
preFlushIndex)`. -/
def queuePreFlushCallback (s : Sched) (cb : SJob) : Sched :=
  { s with pendingPost := queueCallback cb s.pendingPost }

/-- `queuePostFlushCallback` (scheduler.js:148-150). -/
def queuePostFlushCallback (s : Sched) (cb : SJob) : Sched :=
  { s with pendingPost := queueCallback cb s.pendingPost }

/-- `flushPreFlushCallbacks` (scheduler.js:156-172): dedupe and run the
pending pre-flush callbacks, looping until none remain.  Modelled jobs
enqueue nothing, so the recursive call finds an empty pending queue and
stops after one round. -/
def flushPreFlushCbs (s : Sched) : List SJob × Sched :=
  if s.pendingPre.isEmpty then ([], s)
  else (dedupeFirst s.pendingPre, { s with pendingPre := [] })

/-- `flushPostFlushCallbacks` (scheduler.js:177-198): dedupe, sort by id,
run. -/
def flushPostFlushCbs (s : Sched) : List SJob × Sched :=
  if s.pendingPost.isEmpty then ([], s)
  else (sortJobs (dedupeFirst s.pendingPost), { s with pendingPost := [] })

/-- `flushJobs` (scheduler.js:212-241) with inert jobs: pre-flush
callbacks, then the sorted main queue (skipping inactive jobs), then —
after the queue is cleared in the `finally` — the post-flush callbacks.
Nothing re-queues, so the trailing restart check finds empty queues.
Returns the executed trace in order. -/
def flushJobs (s : Sched) : List SJob :=
  let pre := flushPreFlushCbs s
  let mainTrace := flushMainTrace pre.2.queue
  let post := flushPostFlushCbs { pre.2 with queue := [] }
  pre.1 ++ mainTrace ++ post.1

/-! ### Claim C5 -/

theorem jobLe_refl (a : SJob) : jobLe a a = true := by
  unfold jobLe
  cases a.nid <;> simp

theorem jobLe_trans (a b c : SJob) (h1 : jobLe a b) (h2 : jobLe b c) :
    jobLe a c = true := by
  unfold jobLe at h1 h2 ⊢
  cases ha : a.nid <;> cases hb : b.nid <;> cases hc : c.nid <;>
    (simp_all; try omega)

theorem jobLe_total (a b : SJob) : jobLe a b || jobLe b a := by
  unfold jobLe
  cases a.nid <;> cases b.nid <;> (simp; try omega)

instance : IsTotal SJob jobLeP :=
  ⟨fun a b => by
    rcases Bool.or_eq_true_iff.mp (jobLe_total a b) with h | h
    · exact Or.inl h
    · exact Or.inr h⟩

instance : IsTrans SJob jobLeP :=
  ⟨fun a b c h1 h2 => jobLe_trans a b c h1 h2⟩

/-- The main flush trace is sorted by `jobLe`, whatever the queue holds. -/
theorem flushMainTrace_pairwise (q : List SJob) :
    (flushMainTrace q).Pairwise jobLeP := by
  have hs : (sortJobs q).Pairwise jobLeP := List.sorted_insertionSort jobLeP q
  exact List.Pairwise.filter _ hs

/-- C5: in one flush pass the executed jobs come in ascending numeric-id
order, regardless of how `queueJob` ordered the raw queue (the queue is
sorted by `getId` at the start of `flushJobs`); in particular, enqueuing
the child job (id 2) before its parent (id 1) still executes the parent
first. -/
theorem scheduler_flush_ascending :
    (∀ q : List SJob, ∀ i j x y, i ≤ j → j < (flushMainTrace q).length →
      (flushMainTrace q).getD i default = x →
      (flushMainTrace q).getD j default = y →
      jobLe x y = true) ∧
    (flushMainTrace
      (queueJob (queueJob [] ⟨2, some 2, true, false⟩) ⟨1, some 1, true, false⟩) =
      [⟨1, some 1, true, false⟩, ⟨2, some 2, true, false⟩]) := by
  constructor
  · intro q i j x y hij hj hx hy
    rcases Nat.lt_or_ge i j with hlt | hge
    · have hp := flushMainTrace_pairwise q
      rw [List.pairwise_iff_getElem] at hp
      have hr := hp i j (Nat.lt_trans hlt hj) hj hlt
      have hxi : (flushMainTrace q).getD i default = (flushMainTrace q)[i] := by
        simp [List.getD, List.get?_eq_getElem?,
          List.getElem?_eq_getElem (Nat.lt_trans hlt hj)]
      have hyj : (flushMainTrace q).getD j default = (flushMainTrace q)[j] := by
        simp [List.getD, List.get?_eq_getElem?, List.getElem?_eq_getElem hj]
      rw [hxi] at hx
      rw [hyj] at hy
      rw [← hx, ← hy]
      exact hr
    · have hji : i = j := Nat.le_antisymm hij hge
      subst hji
      rw [hx] at hy
      rw [← hy]
      exact jobLe_refl x
  · rfl

/-- Witness for C5: the concrete reversed enqueue, id 1 flushed before
id 2. -/
theorem scheduler_flush_ascending_witness :
    jobLe ⟨1, some 1, true, false⟩ ⟨2, some 2, true, false⟩ = true ∧
    (flushMainTrace
      (queueJob (queueJob [] ⟨2, some 2, true, false⟩) ⟨1, some 1, true, false⟩) =
      [⟨1, some 1, true, false⟩, ⟨2, some 2, true, false⟩]) :=
  ⟨scheduler_flush_ascending.1
      (queueJob (queueJob [] ⟨2, some 2, true, false⟩) ⟨1, some 1, true, false⟩)
      0 1 ⟨1, some 1, true, false⟩ ⟨2, some 2, true, false⟩
      (by decide) (by decide) (by decide) (by decide),
    scheduler_flush_ascending.2⟩

/-! ### Claim C4 -/

/-- C4: the code contradicts the claim.  `queuePreFlushCallback`
(scheduler.js:141) appends the callback to `pendingPostFlushCallbacks`
(the source passes the post queue where the pre queue was intended — the
pre queue `pendingPreFlushCallbacks` is never written anywhere), so a
callback registered through it runs *after* the main queue drains, in the
post-flush phase, and never before.  Concretely: with one main-queue job
`j` and one callback `c` registered via `queuePreFlushCallback`, the flush
executes `[j, c]`, and the pre-flush pending queue stays empty. -/
theorem c4_preflush_callback_runs_after_queue :
    flushJobs
      (queuePreFlushCallback
        ⟨queueJob [] ⟨1, some 1, true, false⟩, [], []⟩
        ⟨2, some 2, true, false⟩) =
      [⟨1, some 1, true, false⟩, ⟨2, some 2, true, false⟩] ∧
    (∀ s cb, (queuePreFlushCallback s cb).pendingPre = s.pendingPre ∧
      (queuePreFlushCallback s cb).pendingPost = s.pendingPost ++ [cb]) := by
  refine ⟨rfl, fun s cb => ⟨rfl, rfl⟩⟩

/-! ## Dependency markers (unnamed/part_005 dep.js, unnamed/part_013
effect.js)

A run of a `ReactiveEffect` at nesting depth 1 (`trackOpBit = 1 << 1`):
`initDepMarkers` marks every Dep the effect held from its previous run,
each tracked read sets the new-tracked bit and possibly subscribes the
effect, and `finalizeDepMarkers` drops the Deps that were tracked before
but not re-read, clearing both bit planes. -/

/-- Association-list update (the model of `Map.prototype.set`). -/
def alSet {κ β : Type} [DecidableEq κ] : List (κ × β) → κ → β → List (κ × β)
  | [], k, v => [(k, v)]
  | (k', v') :: rest, k, v =>
    if k' = k then (k, v) :: rest else (k', v') :: alSet rest k v

/-- Association-list lookup (`Map.prototype.get`). -/
def alGet? {κ β : Type} [DecidableEq κ] : List (κ × β) → κ → Option β
  | [], _ => none
  | (k', v') :: rest, k => if k' = k then some v' else alGet? rest k

theorem alGet?_alSet_same {κ β : Type} [DecidableEq κ]
    (m : List (κ × β)) (k : κ) (v : β) : alGet? (alSet m k v) k = some v := by
  induction m with
  | nil => simp [alSet, alGet?]
  | cons e rest ih =>
    obtain ⟨k', v'⟩ := e
    by_cases h : k' = k
    · simp [alSet, alGet?, h]
    · simp [alSet, alGet?, h, ih]

theorem alGet?_alSet_other {κ β : Type} [DecidableEq κ]
    (m : List (κ × β)) (k k' : κ) (v : β) (h : k' ≠ k) :
    alGet? (alSet m k v) k' = alGet? m k' := by
  have hne : ¬ k = k' := fun hc => h hc.symm
  induction m with
  | nil => simp [alSet, alGet?, hne]
  | cons e rest ih =>
    obtain ⟨k₀, v₀⟩ := e
    by_cases h0 : k₀ = k
    · subst h0
      simp [alSet, alGet?, hne]
    · simp [alSet, alGet?, h0, ih]

/-- The bit of the current nesting level: the model runs effects at depth 1,
where `run()` computes `trackOpBit = 1 << 1` (part_013:134). -/
def trackOpBit : Nat := 2

/-- A Dep (part_005): the subscribed effects (a `Set`, kept in insertion
order) and the two bit planes `w` (was tracked) and `n` (newly tracked). -/
structure DepData where
  members : List Nat
  w : Nat
  n : Nat
deriving DecidableEq, Repr

/-- `createDep()` (part_005:18-24) with no initial effects. -/
def createDep : DepData := ⟨[], 0, 0⟩

/-- `wasTracked` (part_005:31): `(dep.w & trackOpBit) > 0`. -/
def wasTracked (d : DepData) : Bool := decide (0 < d.w &&& trackOpBit)

/-- `newTracked` (part_005:38): `(dep.n & trackOpBit) > 0`. -/
def newTracked (d : DepData) : Bool := decide (0 < d.n &&& trackOpBit)

/-- `dep.w &= ~trackOpBit; dep.n &= ~trackOpBit` (part_005:75-76).  For the
single-bit mask this clears exactly that bit: `x & ~b = x - (x & b)`. -/
def clearBits (d : DepData) : DepData :=
  { d with w := d.w - (d.w &&& trackOpBit), n := d.n - (d.n &&& trackOpBit) }

/-- The tracking state of one reactive target: its `depsMap` (key to Dep,
from `targetMap`, part_013:52) and, for every effect, the keys of the Deps
on its `deps` array (the model keys Deps by their map key, since the
source stores aliased Dep objects). -/
structure TrackSt where
  depsMap : List (String × DepData)
  effDeps : List (Nat × List String)
deriving DecidableEq, Repr

def getDep (st : TrackSt) (k : String) : DepData :=
  (alGet? st.depsMap k).getD createDep

def setDep (st : TrackSt) (k : String) (d : DepData) : TrackSt :=
  { st with depsMap := alSet st.depsMap k d }

def getEffDeps (st : TrackSt) (e : Nat) : List String :=
  (alGet? st.effDeps e).getD []

def setEffDeps (st : TrackSt) (e : Nat) (l : List String) : TrackSt :=
  { st with effDeps := alSet st.effDeps e l }

theorem getDep_setDep_same (st : TrackSt) (k : String) (d : DepData) :
    getDep (setDep st k d) k = d := by
  simp [getDep, setDep, alGet?_alSet_same]

theorem getDep_setDep_other (st : TrackSt) (k k' : String) (d : DepData)
    (h : k' ≠ k) : getDep (setDep st k d) k' = getDep st k' := by
  simp [getDep, setDep, alGet?_alSet_other _ _ _ _ h]

theorem getEffDeps_setDep (st : TrackSt) (k : String) (d : DepData) (e : Nat) :
    getEffDeps (setDep st k d) e = getEffDeps st e := rfl

theorem getDep_setEffDeps (st : TrackSt) (e : Nat) (l : List String) (k : String) :
    getDep (setEffDeps st e l) k = getDep st k := rfl

theorem getEffDeps_setEffDeps_same (st : TrackSt) (e : Nat) (l : List String) :
    getEffDeps (setEffDeps st e l) e = l := by
  simp [getEffDeps, setEffDeps, alGet?_alSet_same]

theorem getEffDeps_setEffDeps_other (st : TrackSt) (e e' : Nat) (l : List String)
    (h : e' ≠ e) : getEffDeps (setEffDeps st e l) e' = getEffDeps st e' := by
  simp [getEffDeps, setEffDeps, alGet?_alSet_other _ _ _ _ h]

/-- `initDepMarkers` (part_005:45-51): `deps[i].w |= trackOpBit` for every
Dep on the effect's list. -/
def initDepMarkers (st : TrackSt) (e : Nat) : TrackSt :=
  (getEffDeps st e).foldl
    (fun s k =>
      let d := getDep s k
      setDep s k { d with w := d.w ||| trackOpBit })
    st

/-- One tracked read of key `k` by the running effect `e`:
`track` (part_013:272-290) fetches or creates the Dep for the key, then
`trackEffects` (part_013:306-322): if the Dep is not yet newly tracked,
set its `n` bit and, when it was not tracked by the previous run either
(`shouldTrack = !wasTracked(dep)`), add the effect to the Dep (`Set.add`:
only if absent) and push the Dep onto `effect.deps`. -/
def trackRead (st : TrackSt) (e : Nat) (k : String) : TrackSt :=
  let d := getDep st k
  if !newTracked d then
    let d1 := { d with n := d.n ||| trackOpBit }
    if !wasTracked d1 then
      let d2 := { d1 with
        members := if e ∈ d1.members then d1.members else d1.members ++ [e] }
      setEffDeps (setDep st k d2) e (getEffDeps st e ++ [k])
    else setDep st k d1
  else st

/-- The loop body of `finalizeDepMarkers` (part_005:63-77): a Dep that was
tracked by the previous run but not by this one forgets the effect and
leaves the list (the `ptr` compaction); every visited Dep gets the current
level cleared from both bit planes. -/
def finalizeStep (e : Nat) (acc : TrackSt × List String) (k : String) :
    TrackSt × List String :=
  let d := getDep acc.1 k
  if wasTracked d && !newTracked d then
    (setDep acc.1 k (clearBits { d with members := d.members.filter (· ≠ e) }),
      acc.2)
  else
    (setDep acc.1 k (clearBits d), acc.2 ++ [k])

/-- `finalizeDepMarkers` (part_005:57-81). -/
def finalizeDepMarkers (st : TrackSt) (e : Nat) : TrackSt :=
  let res := (getEffDeps st e).foldl (finalizeStep e) (st, [])
  setEffDeps res.1 e res.2

/-- One complete depth-1 `run()` of effect `e` whose function performs the
given tracked reads (part_013:124-156, the `effectTrackDepth ≤
maxMarkerBits` path): init markers, run the function, finalize markers. -/
def runEffect (st : TrackSt) (e : Nat) (reads : List String) : TrackSt :=
  finalizeDepMarkers (reads.foldl (fun s k => trackRead s e k) (initDepMarkers st e)) e

/-- `trigger(target, SET, k)` for a plain key (part_013:332-403) collects
exactly `depsMap.get(k)` and `triggerEffects` (part_013:409-419) invokes
each member once (no effect is active between runs, so none is skipped).
These are the effect ids invoked. -/
def triggerKeyInvocations (st : TrackSt) (k : String) : List Nat :=
  (getDep st k).members

/-! ### Characterizing one run -/

theorem or_trackOpBit_idem (x : Nat) : (x ||| trackOpBit) ||| trackOpBit = x ||| trackOpBit := by
  rw [Nat.or_assoc, Nat.or_self]

/-- After the init fold, exactly the listed Deps carry the `w` bit. -/
theorem initFold_dep (l : List String) (s : TrackSt) (k : String) :
    getDep (l.foldl
      (fun s k =>
        let d := getDep s k
        setDep s k { d with w := d.w ||| trackOpBit }) s) k =
      (if k ∈ l
        then { getDep s k with w := (getDep s k).w ||| trackOpBit }
        else getDep s k) := by
  induction l generalizing s with
  | nil => simp
  | cons k₀ rest ih =>
    simp only [List.foldl_cons]
    rw [ih]
    by_cases h : k = k₀
    · subst h
      by_cases hr : k ∈ rest
      · simp [hr, getDep_setDep_same, or_trackOpBit_idem]
      · simp [hr, getDep_setDep_same]
    · rw [getDep_setDep_other _ _ _ _ h]
      by_cases hr : k ∈ rest
      · simp [hr, h]
      · simp [hr, h]

theorem initFold_eff (l : List String) (s : TrackSt) (e' : Nat) :
    getEffDeps (l.foldl
      (fun s k =>
        let d := getDep s k
        setDep s k { d with w := d.w ||| trackOpBit }) s) e' = getEffDeps s e' := by
  induction l generalizing s with
  | nil => rfl
  | cons k₀ rest ih =>
    simp only [List.foldl_cons]
    rw [ih]
    rfl

/-- The mid-run characterization: after `initDepMarkers` and the tracked
reads `P` (performed by effect `e` whose previous-run dep keys are
`getEffDeps st0 e`), every Dep and every deps-list is determined. -/
structure MidInv (st0 : TrackSt) (e : Nat) (P : List String) (st2 : TrackSt) : Prop where
  dep_members : ∀ k, (getDep st2 k).members =
    (if k ∈ P ∧ ¬ k ∈ getEffDeps st0 e
      then (getDep st0 k).members ++ [e] else (getDep st0 k).members)
  dep_w : ∀ k, (getDep st2 k).w = (if k ∈ getEffDeps st0 e then trackOpBit else 0)
  dep_n : ∀ k, (getDep st2 k).n = (if k ∈ P then trackOpBit else 0)
  eff_mem : ∀ k, k ∈ getEffDeps st2 e ↔ (k ∈ getEffDeps st0 e ∨ k ∈ P)
  eff_nodup : (getEffDeps st2 e).Nodup
  eff_other : ∀ e', e' ≠ e → getEffDeps st2 e' = getEffDeps st0 e'

/-- The pre-run well-formedness: all marker bits clear, Deps hold each
effect at most once, the deps-list of each effect matches Dep membership,
and deps-lists are duplicate-free. -/
structure PreInv (st0 : TrackSt) : Prop where
  clean_w : ∀ k, (getDep st0 k).w = 0
  clean_n : ∀ k, (getDep st0 k).n = 0
  members_nodup : ∀ k, (getDep st0 k).members.Nodup
  mem_iff : ∀ e' k, e' ∈ (getDep st0 k).members ↔ k ∈ getEffDeps st0 e'
  eff_nodup : ∀ e', (getEffDeps st0 e').Nodup

theorem midInv_init (st0 : TrackSt) (e : Nat) (h : PreInv st0) :
    MidInv st0 e [] (initDepMarkers st0 e) := by
  refine ⟨?_, ?_, ?_, ?_, ?_, ?_⟩
  · intro k
    unfold initDepMarkers
    rw [initFold_dep]
    by_cases hk : k ∈ getEffDeps st0 e <;> simp [hk]
  · intro k
    unfold initDepMarkers
    rw [initFold_dep]
    by_cases hk : k ∈ getEffDeps st0 e <;> simp [hk, h.clean_w k]
  · intro k
    unfold initDepMarkers
    rw [initFold_dep]
    by_cases hk : k ∈ getEffDeps st0 e <;> simp [hk, h.clean_n k]
  · intro k
    unfold initDepMarkers
    rw [initFold_eff]
    simp
  · unfold initDepMarkers
    rw [initFold_eff]
    exact h.eff_nodup e
  · intro e' he
    unfold initDepMarkers
    rw [initFold_eff]

theorem trackOpBit_pos : 0 < trackOpBit := by decide

/-- One tracked read extends the mid-run characterization by its key. -/
theorem midInv_step (st0 : TrackSt) (e : Nat) (P : List String) (st2 : TrackSt)
    (hpre : PreInv st0) (hmid : MidInv st0 e P st2) (k₀ : String) :
    MidInv st0 e (P ++ [k₀]) (trackRead st2 e k₀) := by
  by_cases hk₀ : k₀ ∈ P
  · -- n bit already set: newTracked, trackRead is the identity
    have hnew : newTracked (getDep st2 k₀) = true := by
      simp [newTracked, hmid.dep_n k₀, hk₀, trackOpBit_pos]
    have hid : trackRead st2 e k₀ = st2 := by
      unfold trackRead
      simp [hnew]
    rw [hid]
    have hP : ∀ k : String, k ∈ P ++ [k₀] ↔ k ∈ P := by
      intro k
      simp only [List.mem_append, List.mem_singleton]
      constructor
      · rintro (h | rfl)
        · exact h
        · exact hk₀
      · exact Or.inl
    refine ⟨?_, hmid.dep_w, ?_, ?_, hmid.eff_nodup, hmid.eff_other⟩
    · intro k
      rw [hmid.dep_members k]
      by_cases hx : k ∈ P ∧ ¬ k ∈ getEffDeps st0 e
      · simp [hx, (hP k).mpr hx.1, hx.2]
      · rw [if_neg hx, if_neg]
        intro hc
        exact hx ⟨(hP k).mp hc.1, hc.2⟩
    · intro k
      rw [hmid.dep_n k]
      by_cases hx : k ∈ P
      · simp [hx, (hP k).mpr hx]
      · rw [if_neg hx, if_neg]
        intro hc
        exact hx ((hP k).mp hc)
    · intro k
      rw [hmid.eff_mem k, hP k]
  · -- first read of k₀ during this run
    have hnew : newTracked (getDep st2 k₀) = false := by
      simp [newTracked, hmid.dep_n k₀, hk₀]
    by_cases hold : k₀ ∈ getEffDeps st0 e
    · -- tracked by the previous run too: only the n bit is set
      have hwas : wasTracked
          { getDep st2 k₀ with n := (getDep st2 k₀).n ||| trackOpBit } = true := by
        simp [wasTracked, hmid.dep_w k₀, hold, trackOpBit_pos]
      have heq : trackRead st2 e k₀ =
          setDep st2 k₀
            { getDep st2 k₀ with n := (getDep st2 k₀).n ||| trackOpBit } := by
        unfold trackRead
        simp [hnew, hwas]
      rw [heq]
      refine ⟨?_, ?_, ?_, ?_, ?_, ?_⟩
      · intro k
        by_cases h : k = k₀
        · subst h
          rw [getDep_setDep_same]
          have := hmid.dep_members k
          simp only at this ⊢
          rw [this]
          have hc1 : ¬ (k ∈ P ∧ ¬ k ∈ getEffDeps st0 e) := fun hc => hc.2 hold
          have hc2 : ¬ (k ∈ P ++ [k] ∧ ¬ k ∈ getEffDeps st0 e) := fun hc => hc.2 hold
          rw [if_neg hc1, if_neg hc2]
        · rw [getDep_setDep_other _ _ _ _ h, hmid.dep_members k]
          have : (k ∈ P ++ [k₀]) ↔ k ∈ P := by
            simp [List.mem_append, h]
          by_cases hx : k ∈ P ∧ ¬ k ∈ getEffDeps st0 e
          · rw [if_pos hx, if_pos ⟨this.mpr hx.1, hx.2⟩]
          · rw [if_neg hx, if_neg (fun hc => hx ⟨this.mp hc.1, hc.2⟩)]
      · intro k
        by_cases h : k = k₀
        · subst h
          rw [getDep_setDep_same]
          simp only
          exact hmid.dep_w k
        · rw [getDep_setDep_other _ _ _ _ h]
          exact hmid.dep_w k
      · intro k
        by_cases h : k = k₀
        · subst h
          rw [getDep_setDep_same]
          simp only
          rw [hmid.dep_n k, if_neg hk₀, if_pos (by simp)]
          simp [Nat.zero_or]
        · rw [getDep_setDep_other _ _ _ _ h, hmid.dep_n k]
          have : (k ∈ P ++ [k₀]) ↔ k ∈ P := by simp [List.mem_append, h]
          by_cases hx : k ∈ P
          · rw [if_pos hx, if_pos (this.mpr hx)]
          · rw [if_neg hx, if_neg (fun hc => hx (this.mp hc))]
      · intro k
        rw [getEffDeps_setDep, hmid.eff_mem k]
        constructor
        · rintro (h | h)
          · exact Or.inl h
          · exact Or.inr (by simp [h])
        · rintro (h | h)
          · exact Or.inl h
          · rcases List.mem_append.mp h with h | h
            · exact Or.inr h
            · rw [List.mem_singleton] at h
              subst h
              exact Or.inl hold
      · rw [getEffDeps_setDep]
        exact hmid.eff_nodup
      · intro e' he
        rw [getEffDeps_setDep]
        exact hmid.eff_other e' he
    · -- brand new dependency: subscribe and push onto effect.deps
      have hwas : wasTracked
          { getDep st2 k₀ with n := (getDep st2 k₀).n ||| trackOpBit } = false := by
        simp [wasTracked, hmid.dep_w k₀, hold]
      have hmem0 : (getDep st2 k₀).members = (getDep st0 k₀).members := by
        rw [hmid.dep_members k₀, if_neg (fun hc => hk₀ hc.1)]
      have hnotin : ¬ e ∈ { getDep st2 k₀ with
          n := (getDep st2 k₀).n ||| trackOpBit }.members := by
        simp only
        rw [hmem0]
        intro hc
        exact hold ((hpre.mem_iff e k₀).mp hc)
      have heq : trackRead st2 e k₀ =
          setEffDeps
            (setDep st2 k₀
              { getDep st2 k₀ with
                n := (getDep st2 k₀).n ||| trackOpBit,
                members := (getDep st2 k₀).members ++ [e] })
            e (getEffDeps st2 e ++ [k₀]) := by

        unfold trackRead
        simp [hnew, hwas, hnotin]
      rw [heq]
      have hknotin2 : ¬ k₀ ∈ getEffDeps st2 e := by
        rw [hmid.eff_mem k₀]
        rintro (h | h)
        · exact hold h
        · exact hk₀ h
      refine ⟨?_, ?_, ?_, ?_, ?_, ?_⟩
      · intro k
        rw [getDep_setEffDeps]
        by_cases h : k = k₀
        · subst h
          rw [getDep_setDep_same]
          simp only
          rw [hmem0]
          rw [if_pos ⟨by simp, hold⟩]
        · rw [getDep_setDep_other _ _ _ _ h, hmid.dep_members k]
          have : (k ∈ P ++ [k₀]) ↔ k ∈ P := by simp [List.mem_append, h]
          by_cases hx : k ∈ P ∧ ¬ k ∈ getEffDeps st0 e
          · rw [if_pos hx, if_pos ⟨this.mpr hx.1, hx.2⟩]
          · rw [if_neg hx, if_neg (fun hc => hx ⟨this.mp hc.1, hc.2⟩)]
      · intro k
        rw [getDep_setEffDeps]
        by_cases h : k = k₀
        · subst h
          rw [getDep_setDep_same]
          simp only
          exact hmid.dep_w k
        · rw [getDep_setDep_other _ _ _ _ h]
          exact hmid.dep_w k
      · intro k
        rw [getDep_setEffDeps]
        by_cases h : k = k₀
        · subst h
          rw [getDep_setDep_same]
          simp only
          rw [hmid.dep_n k, if_neg hk₀, if_pos (by simp)]
          simp [Nat.zero_or]
        · rw [getDep_setDep_other _ _ _ _ h, hmid.dep_n k]
          have : (k ∈ P ++ [k₀]) ↔ k ∈ P := by simp [List.mem_append, h]
          by_cases hx : k ∈ P
          · rw [if_pos hx, if_pos (this.mpr hx)]
          · rw [if_neg hx, if_neg (fun hc => hx (this.mp hc))]
      · intro k
        rw [getEffDeps_setEffDeps_same]
        simp only [List.mem_append, List.mem_singleton]
        rw [hmid.eff_mem k]
        constructor
        · rintro ((h | h) | h)
          · exact Or.inl h
          · exact Or.inr (by simp [h])
          · exact Or.inr (by simp [h])
        · rintro (h | h)
          · exact Or.inl (Or.inl h)
          · rcases h with h | h
            · exact Or.inl (Or.inr h)
            · exact Or.inr (by simp [h])
      · rw [getEffDeps_setEffDeps_same]
        exact List.Nodup.append hmid.eff_nodup (List.nodup_singleton k₀)
          (by
            intro a ha hb
            rw [List.mem_singleton] at hb
            subst hb
            exact hknotin2 ha)
      · intro e' he
        rw [getEffDeps_setEffDeps_other _ _ _ _ he, getEffDeps_setDep]
        exact hmid.eff_other e' he

/-- The mid-run characterization extends along the whole read list. -/
theorem midInv_fold (st0 : TrackSt) (e : Nat) (hpre : PreInv st0) :
    ∀ (rest P : List String) (st2 : TrackSt), MidInv st0 e P st2 →
      MidInv st0 e (P ++ rest) (rest.foldl (fun s k => trackRead s e k) st2) := by
  intro rest
  induction rest with
  | nil =>
    intro P st2 h
    simpa using h
  | cons k₀ rest ih =>
    intro P st2 h
    have h1 := midInv_step st0 e P st2 hpre h k₀
    have h2 := ih (P ++ [k₀]) _ h1
    simpa using h2

/-- What `finalizeStep` makes of one Dep. -/
def finalForm (e : Nat) (d : DepData) : DepData :=
  if wasTracked d && !newTracked d then
    clearBits { d with members := d.members.filter (· ≠ e) }
  else clearBits d

/-- Whether `finalizeStep` keeps the Dep on the effect's list. -/
def keepPred (_e : Nat) (d : DepData) : Bool :=
  !(wasTracked d && !newTracked d)

theorem finalizeStep_fst (e : Nat) (s : TrackSt) (kept : List String) (k : String) :
    (finalizeStep e (s, kept) k).1 = setDep s k (finalForm e (getDep s k)) := by
  unfold finalizeStep finalForm
  by_cases h : (wasTracked (getDep s k) && !newTracked (getDep s k)) = true
  · simp [h]
  · simp only [Bool.not_eq_true] at h
    simp [h]

theorem finalizeStep_snd (e : Nat) (s : TrackSt) (kept : List String) (k : String) :
    (finalizeStep e (s, kept) k).2 =
      kept ++ (if keepPred e (getDep s k) then [k] else []) := by
  unfold finalizeStep keepPred
  by_cases h : (wasTracked (getDep s k) && !newTracked (getDep s k)) = true
  · simp [h]
  · simp only [Bool.not_eq_true] at h
    simp [h]

/-- The finalize fold, over a duplicate-free key list: processed keys take
their final form from their pre-fold Dep, untouched keys keep it, the kept
list filters by `keepPred`, and no deps-list changes. -/
theorem finalizeFold_char (e : Nat) :
    ∀ (L : List String), L.Nodup → ∀ (s : TrackSt) (kept0 : List String),
      (∀ k, k ∈ L →
        getDep (L.foldl (finalizeStep e) (s, kept0)).1 k = finalForm e (getDep s k)) ∧
      (∀ k, ¬ k ∈ L →
        getDep (L.foldl (finalizeStep e) (s, kept0)).1 k = getDep s k) ∧
      ((L.foldl (finalizeStep e) (s, kept0)).2 =
        kept0 ++ L.filter (fun k => keepPred e (getDep s k))) ∧
      (∀ e', getEffDeps (L.foldl (finalizeStep e) (s, kept0)).1 e' = getEffDeps s e') := by
  intro L
  induction L with
  | nil =>
    intro _ s kept0
    exact ⟨fun k hk => absurd hk (List.not_mem_nil k), fun k _ => rfl,
      by simp, fun e' => rfl⟩
  | cons k₀ rest ih =>
    intro hnd s kept0
    have hk₀rest : ¬ k₀ ∈ rest := (List.nodup_cons.mp hnd).1
    have hndrest : rest.Nodup := (List.nodup_cons.mp hnd).2
    have hstep1 := finalizeStep_fst e s kept0 k₀
    have hstep2 := finalizeStep_snd e s kept0 k₀
    have hfold : (k₀ :: rest).foldl (finalizeStep e) (s, kept0) =
        rest.foldl (finalizeStep e) (finalizeStep e (s, kept0) k₀) := by
      simp [List.foldl_cons]
    have hpair : finalizeStep e (s, kept0) k₀ =
        (setDep s k₀ (finalForm e (getDep s k₀)),
          kept0 ++ (if keepPred e (getDep s k₀) then [k₀] else [])) := by
      rw [Prod.ext_iff]
      exact ⟨hstep1, hstep2⟩
    obtain ⟨ihin, ihout, ihkept, iheff⟩ :=
      ih hndrest (setDep s k₀ (finalForm e (getDep s k₀)))
        (kept0 ++ (if keepPred e (getDep s k₀) then [k₀] else []))
    refine ⟨?_, ?_, ?_, ?_⟩
    · intro k hk
      rw [hfold, hpair]
      rcases List.mem_cons.mp hk with rfl | hk
      · rw [ihout k hk₀rest, getDep_setDep_same]
      · have hne : k ≠ k₀ := fun hc => hk₀rest (hc ▸ hk)
        rw [ihin k hk, getDep_setDep_other _ _ _ _ hne]
    · intro k hk
      have hne : k ≠ k₀ := fun hc => hk (by simp [hc])
      have hkrest : ¬ k ∈ rest := fun hc => hk (by simp [hc])
      rw [hfold, hpair, ihout k hkrest, getDep_setDep_other _ _ _ _ hne]
    · rw [hfold, hpair, ihkept]
      have hf : rest.filter
          (fun k => keepPred e (getDep (setDep s k₀ (finalForm e (getDep s k₀))) k)) =
          rest.filter (fun k => keepPred e (getDep s k)) := by
        apply List.filter_congr
        intro k hk
        have hne : k ≠ k₀ := fun hc => hk₀rest (hc ▸ hk)
        rw [getDep_setDep_other _ _ _ _ hne]
      rw [hf]
      by_cases hkeep : keepPred e (getDep s k₀) = true
      · simp [hkeep, List.filter_cons, List.append_assoc]
      · simp only [Bool.not_eq_true] at hkeep
        simp [hkeep, List.filter_cons]
    · intro e'
      rw [hfold, hpair, iheff, getEffDeps_setDep]

theorem finalForm_members (e : Nat) (d : DepData) :
    (finalForm e d).members =
      (if wasTracked d && !newTracked d then d.members.filter (· ≠ e)
        else d.members) := by
  unfold finalForm clearBits
  split <;> rfl

theorem finalForm_w (e : Nat) (d : DepData) :
    (finalForm e d).w = d.w - (d.w &&& trackOpBit) := by
  unfold finalForm clearBits
  split <;> rfl

theorem finalForm_n (e : Nat) (d : DepData) :
    (finalForm e d).n = d.n - (d.n &&& trackOpBit) := by
  unfold finalForm clearBits
  split <;> rfl

/-- Everything one depth-1 run changes, per key: the effect's membership in
each Dep now mirrors the read set, all marker bits are clear again, the
effect's deps-list holds exactly the keys it read, and no other effect's
deps-list moved. -/
theorem runEffect_char (st0 : TrackSt) (e : Nat) (reads : List String)
    (hpre : PreInv st0) :
    (∀ k, (getDep (runEffect st0 e reads) k).members =
      (if k ∈ reads then
        (if k ∈ getEffDeps st0 e then (getDep st0 k).members
          else (getDep st0 k).members ++ [e])
        else if k ∈ getEffDeps st0 e then (getDep st0 k).members.filter (· ≠ e)
        else (getDep st0 k).members)) ∧
    (∀ k, (getDep (runEffect st0 e reads) k).w = 0 ∧
      (getDep (runEffect st0 e reads) k).n = 0) ∧
    (∀ k, k ∈ getEffDeps (runEffect st0 e reads) e ↔ k ∈ reads) ∧
    (getEffDeps (runEffect st0 e reads) e).Nodup ∧
    (∀ e', e' ≠ e → getEffDeps (runEffect st0 e reads) e' = getEffDeps st0 e') := by
  have hmid : MidInv st0 e reads
      (reads.foldl (fun s k => trackRead s e k) (initDepMarkers st0 e)) := by
    have := midInv_fold st0 e hpre reads [] (initDepMarkers st0 e)
      (midInv_init st0 e hpre)
    simpa using this
  set st2 := reads.foldl (fun s k => trackRead s e k) (initDepMarkers st0 e)
    with hst2
  obtain ⟨hin, hout, hkept, heff⟩ :=
    finalizeFold_char e (getEffDeps st2 e) hmid.eff_nodup st2 []
  have hrun : runEffect st0 e reads = finalizeDepMarkers st2 e := rfl
  have hdep3 : ∀ k, getDep (runEffect st0 e reads) k =
      getDep ((getEffDeps st2 e).foldl (finalizeStep e) (st2, [])).1 k := by
    intro k
    rw [hrun]
    unfold finalizeDepMarkers
    rw [getDep_setEffDeps]
  have heffe : getEffDeps (runEffect st0 e reads) e =
      (getEffDeps st2 e).filter (fun k => keepPred e (getDep st2 k)) := by
    rw [hrun]
    unfold finalizeDepMarkers
    rw [getEffDeps_setEffDeps_same, hkept]
    simp
  have heffo : ∀ e', e' ≠ e →
      getEffDeps (runEffect st0 e reads) e' = getEffDeps st0 e' := by
    intro e' he
    rw [hrun]
    unfold finalizeDepMarkers
    rw [getEffDeps_setEffDeps_other _ _ _ _ he, heff, hmid.eff_other e' he]
  -- the Bool forms of "was tracked by the previous run" and "read now"
  have hwasb : ∀ k, wasTracked (getDep st2 k) =
      decide (k ∈ getEffDeps st0 e) := by
    intro k
    unfold wasTracked
    rw [hmid.dep_w k]
    by_cases h : k ∈ getEffDeps st0 e <;> simp [h, trackOpBit]
  have hnewb : ∀ k, newTracked (getDep st2 k) = decide (k ∈ reads) := by
    intro k
    unfold newTracked
    rw [hmid.dep_n k]
    by_cases h : k ∈ reads <;> simp [h, trackOpBit]
  refine ⟨?_, ?_, ?_, ?_, heffo⟩
  · intro k
    by_cases hL : k ∈ getEffDeps st2 e
    · rw [hdep3 k, hin k hL, finalForm_members, hwasb k, hnewb k,
        hmid.dep_members k]
      by_cases hrd : k ∈ reads
      · by_cases hold : k ∈ getEffDeps st0 e <;> simp [hrd, hold]
      · have hold : k ∈ getEffDeps st0 e := by
          rcases (hmid.eff_mem k).mp hL with h | h
          · exact h
          · exact absurd h hrd
        simp [hrd, hold]
    · have hold : ¬ k ∈ getEffDeps st0 e :=
        fun h => hL ((hmid.eff_mem k).mpr (Or.inl h))
      have hrd : ¬ k ∈ reads :=
        fun h => hL ((hmid.eff_mem k).mpr (Or.inr h))
      rw [hdep3 k, hout k hL, hmid.dep_members k]
      simp [hrd, hold]
  · intro k
    by_cases hL : k ∈ getEffDeps st2 e
    · rw [hdep3 k, hin k hL, finalForm_w, finalForm_n, hmid.dep_w k,
        hmid.dep_n k]
      constructor
      · by_cases hold : k ∈ getEffDeps st0 e <;> simp [hold, trackOpBit]
      · by_cases hrd : k ∈ reads <;> simp [hrd, trackOpBit]
    · have hold : ¬ k ∈ getEffDeps st0 e :=
        fun h => hL ((hmid.eff_mem k).mpr (Or.inl h))
      have hrd : ¬ k ∈ reads :=
        fun h => hL ((hmid.eff_mem k).mpr (Or.inr h))
      rw [hdep3 k, hout k hL]
      exact ⟨by rw [hmid.dep_w k]; simp [hold], by rw [hmid.dep_n k]; simp [hrd]⟩
  · intro k
    rw [heffe, List.mem_filter]
    constructor
    · rintro ⟨hL, hkeep⟩
      unfold keepPred at hkeep
      rw [hwasb k, hnewb k] at hkeep
      rcases (hmid.eff_mem k).mp hL with h | h
      · by_cases hrd : k ∈ reads
        · exact hrd
        · simp [h, hrd] at hkeep
      · exact h
    · intro hrd
      refine ⟨(hmid.eff_mem k).mpr (Or.inr hrd), ?_⟩
      unfold keepPred
      rw [hwasb k, hnewb k]
      simp [hrd]
  · rw [heffe]
    exact List.Nodup.filter _ hmid.eff_nodup

/-! ### Claim C1 -/

/-- C1: after an effect's most recent (depth-1) run, for every key `k` of
a reactive object, the effect sits in the Dep of `k` iff the run read `k`
— so `finalizeDepMarkers` removed it from every Dep of a key it no longer
reads; other effects' subscriptions are untouched; and a subsequent
`trigger` of a SET on `k` invokes the effect exactly once if the run read
`k` and never otherwise.  The pre-run well-formedness (`PreInv`) is
re-established, so runs compose. -/
theorem dependency_precision (st0 : TrackSt) (e : Nat) (reads : List String)
    (hpre : PreInv st0) :
    (∀ k, e ∈ (getDep (runEffect st0 e reads) k).members ↔ k ∈ reads) ∧
    (∀ e' k, e' ≠ e →
      (e' ∈ (getDep (runEffect st0 e reads) k).members ↔
        e' ∈ (getDep st0 k).members)) ∧
    (∀ k, (triggerKeyInvocations (runEffect st0 e reads) k).count e =
      (if k ∈ reads then 1 else 0)) ∧
    PreInv (runEffect st0 e reads) := by
  obtain ⟨hm, hbits, heffe, hnod, heffo⟩ := runEffect_char st0 e reads hpre
  have hmem_e : ∀ k, e ∈ (getDep (runEffect st0 e reads) k).members ↔ k ∈ reads := by
    intro k
    rw [hm k]
    by_cases hrd : k ∈ reads
    · by_cases hold : k ∈ getEffDeps st0 e
      · simp only [hrd, hold, if_true, iff_true]
        exact (hpre.mem_iff e k).mpr hold
      · simp [hrd, hold]
    · by_cases hold : k ∈ getEffDeps st0 e
      · simp only [hrd, hold, if_false, if_true]
        simp
      · simp only [hrd, hold, if_false, iff_false]
        intro hc
        exact hold ((hpre.mem_iff e k).mp hc)
  have hmem_o : ∀ e' k, e' ≠ e →
      (e' ∈ (getDep (runEffect st0 e reads) k).members ↔
        e' ∈ (getDep st0 k).members) := by
    intro e' k he
    rw [hm k]
    by_cases hrd : k ∈ reads
    · by_cases hold : k ∈ getEffDeps st0 e
      · simp [hrd, hold]
      · simp [hrd, hold, List.mem_append, he]
    · by_cases hold : k ∈ getEffDeps st0 e
      · simp [hrd, hold, List.mem_filter, he]
      · simp [hrd, hold]
  have hnodupPost : ∀ k, (getDep (runEffect st0 e reads) k).members.Nodup := by
    intro k
    rw [hm k]
    by_cases hrd : k ∈ reads
    · by_cases hold : k ∈ getEffDeps st0 e
      · simp only [hrd, hold, if_true]
        exact hpre.members_nodup k
      · simp only [hrd, hold, if_false, if_true]
        refine List.Nodup.append (hpre.members_nodup k) (List.nodup_singleton e) ?_
        intro a ha hb
        rw [List.mem_singleton] at hb
        rw [hb] at ha
        exact hold ((hpre.mem_iff e k).mp ha)
    · by_cases hold : k ∈ getEffDeps st0 e
      · simp only [hrd, hold, if_false, if_true]
        exact List.Nodup.filter _ (hpre.members_nodup k)
      · simp only [hrd, hold, if_false]
        exact hpre.members_nodup k
  refine ⟨hmem_e, hmem_o, ?_, ?_, ?_, hnodupPost, ?_, ?_⟩
  · intro k
    unfold triggerKeyInvocations
    by_cases hrd : k ∈ reads
    · rw [if_pos hrd]
      exact List.count_eq_one_of_mem (hnodupPost k) ((hmem_e k).mpr hrd)
    · rw [if_neg hrd]
      exact List.count_eq_zero_of_not_mem (fun hc => hrd ((hmem_e k).mp hc))
  · exact fun k => (hbits k).1
  · exact fun k => (hbits k).2
  · intro e' k
    by_cases he : e' = e
    · subst he
      rw [hmem_e k, heffe k]
    · rw [hmem_o e' k he, heffo e' he]
      exact hpre.mem_iff e' k
  · intro e'
    by_cases he : e' = e
    · subst he
      exact hnod
    · rw [heffo e' he]
      exact hpre.eff_nodup e'

/-- Witness for C1: the empty target, effect 1 running with the single
read `"x"`: it ends subscribed to `"x"` and nothing else; triggering `"x"`
invokes it exactly once, triggering `"y"` not at all. -/
theorem dependency_precision_witness :
    (1 ∈ (getDep (runEffect ⟨[], []⟩ 1 ["x"]) "x").members ↔ "x" ∈ ["x"]) ∧
    (triggerKeyInvocations (runEffect ⟨[], []⟩ 1 ["x"]) "x").count 1 = 1 ∧
    (triggerKeyInvocations (runEffect ⟨[], []⟩ 1 ["x"]) "y").count 1 = 0 := by
  have hpre : PreInv ⟨[], []⟩ := by
    refine ⟨fun k => rfl, fun k => rfl, fun k => List.nodup_nil, ?_, ?_⟩
    · intro e' k
      show e' ∈ ([] : List Nat) ↔ k ∈ ([] : List String)
      simp
    · intro e'
      exact List.nodup_nil
  have h := dependency_precision ⟨[], []⟩ 1 ["x"] hpre
  refine ⟨h.1 "x", ?_, ?_⟩
  · rw [h.2.2.1 "x"]
    simp
  · rw [h.2.2.1 "y"]
    simp

/-! ## Keyed children reconciliation (src/runtime/renderer.js)

`patchKeyedChildren` (renderer.js:703-868) and `getSequence`
(renderer.js:876-926), modelled as a pure function from the two child
lists to the sequence of patch/mount/unmount/move operations it performs
(anchor and container arguments do not affect which operations happen). -/

/-- The entry of the index array at `i` (JS reads beyond the end give
`undefined`; the algorithm only reads in range). -/
def entry (arr : List Nat) (i : Nat) : Nat := arr.getD i 0

/-- The binary-search loop of `getSequence` (renderer.js:898-910), with
fuel: each iteration shrinks `v - u`, so `arr.length + 1` steps suffice. -/
def gsBSearch (arr result : List Nat) (x : Nat) : Nat → Nat → Nat → Nat
  | 0, u, _ => u
  | fuel + 1, u, v =>
    if u < v then
      let c := (u + v) / 2
      if entry arr (result.getD c 0) < x then gsBSearch arr result x fuel (c + 1) v
      else gsBSearch arr result x fuel u c
    else u

/-- The mutable state of `getSequence`: the predecessor array `p`
(initialized to `arr.slice()`) and `result`. -/
structure GSState where
  p : List Nat
  result : List Nat
deriving DecidableEq, Repr

/-- One iteration of the main loop of `getSequence` (renderer.js:884-921):
zero entries are skipped; an entry above the current best tail is
appended; otherwise the binary search finds the leftmost tail at least as
large and, if strictly larger, replaces it. -/
def gsStep (arr : List Nat) (s : GSState) (i : Nat) : GSState :=
  let arrI := entry arr i
  if arrI = 0 then s
  else
    let j := s.result.getD (s.result.length - 1) 0
    if entry arr j < arrI then
      { p := s.p.set i j, result := s.result ++ [i] }
    else
      let u := gsBSearch arr s.result arrI (arr.length + 1) 0 (s.result.length - 1)
      if arrI < entry arr (s.result.getD u 0) then
        { p := if 0 < u then s.p.set i (s.result.getD (u - 1) 0) else s.p,
          result := s.result.set u i }
      else s

/-- The main loop of `getSequence` over all indices, from the initial
state `p = arr.slice(), result = [0]`. -/
def gsLoop (arr : List Nat) : GSState :=
  (List.range arr.length).foldl (gsStep arr) ⟨arr, [0]⟩

/-- The backtracking loop of `getSequence` (renderer.js:913-921): the
output is the predecessor chain of the last `result` entry,
`[p^k(v), ..., p(v), v]`. -/
def pChain (p : List Nat) : Nat → Nat → List Nat
  | 0, v => [v]
  | k + 1, v => pChain p k (p.getD v 0) ++ [v]

/-- `getSequence` (renderer.js:876-926). -/
def getSequence (arr : List Nat) : List Nat :=
  let s := gsLoop arr
  pChain s.p (s.result.length - 1) (s.result.getD (s.result.length - 1) 0)

/-- A VNode as keyed reconciliation inspects it. -/
structure VN where
  vtype : Nat
  tag : String
  key : Option Nat
deriving DecidableEq, Repr

def vnDefault : VN := ⟨0, "", none⟩

/-- `isSameVNodeType` (renderer.js:45-48). -/
def isSameVNodeType (a b : VN) : Bool :=
  a.vtype == b.vtype && a.tag == b.tag && a.key == b.key

/-- The DOM-affecting operations of `patchKeyedChildren`, by index. -/
inductive PatchOp where
  | patchPair (oldIdx newIdx : Nat)
  | mountNew (newIdx : Nat)
  | unmountOld (oldIdx : Nat)
  | moveNode (newIdx : Nat)
deriving DecidableEq, Repr

/-- Child access with the pointer arithmetic done over `Int` (the
source's `e1`/`e2` can go negative). -/
def vnAt (l : List VN) (i : Int) : VN :=
  if i < 0 then vnDefault else l.getD i.toNat vnDefault

/-- The leading while loop (renderer.js:710-722): patch in place while the
heads agree. -/
def frontWalk (c1 c2 : List VN) (e1 e2 : Int) : Nat → Int → Int × List PatchOp
  | 0, i => (i, [])
  | fuel + 1, i =>
    if i ≤ e1 && i ≤ e2 && isSameVNodeType (vnAt c1 i) (vnAt c2 i) then
      let r := frontWalk c1 c2 e1 e2 fuel (i + 1)
      (r.1, .patchPair i.toNat i.toNat :: r.2)
    else (i, [])

/-- The trailing while loop (renderer.js:725-737). -/
def backWalk (c1 c2 : List VN) (i : Int) : Nat → Int → Int → (Int × Int) × List PatchOp
  | 0, e1, e2 => ((e1, e2), [])
  | fuel + 1, e1, e2 =>
    if i ≤ e1 && i ≤ e2 && isSameVNodeType (vnAt c1 e1) (vnAt c2 e2) then
      let r := backWalk c1 c2 i fuel (e1 - 1) (e2 - 1)
      (r.1, .patchPair e1.toNat e2.toNat :: r.2)
    else ((e1, e2), [])

/-- `keyToNewIndexMap` (renderer.js:764-772): `Map.set` over the new-side
middle range (later occurrences of a key overwrite earlier ones). -/
def buildKeyMap (c2 : List VN) (s2 e2 : Nat) : List (Nat × Nat) :=
  (List.range' s2 (e2 + 1 - s2)).foldl
    (fun m i =>
      match (c2.getD i vnDefault).key with
      | some k => alSet m k i
      | none => m)
    []

/-- The state of the first middle-phase loop (renderer.js:774-836). -/
structure MidState where
  map : List Nat
  patched : Nat
  maxNewIndexSoFar : Nat
  moved : Bool
  ops : List PatchOp
deriving DecidableEq, Repr

/-- One iteration of the first middle-phase loop (renderer.js:784-836):
match the old child by key (or, unkeyed, by a scan for the first unmatched
compatible new child), unmount it if unmatched, otherwise record
`oldIndex + 1` in `newIndexToOldIndexMap`, update `moved`, and patch the
pair in place. -/
def middleScan (c1 c2 : List VN) (s2 e2 toBePatched : Nat)
    (keyMap : List (Nat × Nat)) (st : MidState) (i : Nat) : MidState :=
  let oldChild := c1.getD i vnDefault
  if st.patched ≥ toBePatched then
    { st with ops := st.ops ++ [.unmountOld i] }
  else
    let newIndex : Option Nat :=
      match oldChild.key with
      | some k => alGet? keyMap k
      | none =>
        (List.range' s2 (e2 + 1 - s2)).find?
          (fun j => st.map.getD (j - s2) 0 == 0 &&
            isSameVNodeType oldChild (c2.getD j vnDefault))
    match newIndex with
    | none => { st with ops := st.ops ++ [.unmountOld i] }
    | some newIndex =>
      { map := st.map.set (newIndex - s2) (i + 1),
        patched := st.patched + 1,
        maxNewIndexSoFar :=
          if newIndex ≥ st.maxNewIndexSoFar then newIndex else st.maxNewIndexSoFar,
        moved := if newIndex ≥ st.maxNewIndexSoFar then st.moved else true,
        ops := st.ops ++ [.patchPair i newIndex] }

/-- The back-to-front middle-phase loop (renderer.js:843-867): unmatched
entries mount; when `moved`, an entry off the increasing subsequence (or
past its exhaustion) is moved, an entry on it consumes the pointer. -/
def finalLoop (map seq : List Nat) (moved : Bool) (s2 : Nat) : Nat → Int → List PatchOp
  | 0, _ => []
  | i + 1, ptr =>
    if map.getD i 0 == 0 then
      .mountNew (s2 + i) :: finalLoop map seq moved s2 i ptr
    else if moved then
      if decide (ptr < 0) || !(i == seq.getD ptr.toNat 0) then
        .moveNode (s2 + i) :: finalLoop map seq moved s2 i ptr
      else finalLoop map seq moved s2 i (ptr - 1)
    else finalLoop map seq moved s2 i ptr

/-- The result of keyed reconciliation: the operation trace, plus — when
the both-sides-remaining middle phase ran — its `newIndexToOldIndexMap`
and `moved` flag. -/
structure PKCResult where
  ops : List PatchOp
  middle : Option (List Nat × Bool)
deriving DecidableEq, Repr

/-- `patchKeyedChildren` (renderer.js:703-868). -/
def patchKeyedChildrenFull (c1 c2 : List VN) : PKCResult :=
  let l2 := c2.length
  let fw := frontWalk c1 c2 ((c1.length : Int) - 1) ((l2 : Int) - 1)
    (c1.length + c2.length + 1) 0
  let i0 := fw.1
  let bw := backWalk c1 c2 i0 (c1.length + c2.length + 1)
    ((c1.length : Int) - 1) ((l2 : Int) - 1)
  let e1 := bw.1.1
  let e2 := bw.1.2
  let ops0 := fw.2 ++ bw.2
  if i0 > e1 then
    if i0 ≤ e2 then
      { ops := ops0 ++
          (List.range' i0.toNat (e2.toNat + 1 - i0.toNat)).map .mountNew,
        middle := none }
    else { ops := ops0, middle := none }
  else if i0 > e2 then
    { ops := ops0 ++
        (List.range' i0.toNat (e1.toNat + 1 - i0.toNat)).map .unmountOld,
      middle := none }
  else
    let s1 := i0.toNat
    let s2 := i0.toNat
    let e1n := e1.toNat
    let e2n := e2.toNat
    let keyMap := buildKeyMap c2 s2 e2n
    let toBePatched := e2n + 1 - s2
    let st := (List.range' s1 (e1n + 1 - s1)).foldl
      (middleScan c1 c2 s2 e2n toBePatched keyMap)
      ⟨List.replicate toBePatched 0, 0, 0, false, []⟩
    let seq := if st.moved then getSequence st.map else []
    let ops2 := finalLoop st.map seq st.moved s2 toBePatched ((seq.length : Int) - 1)
    { ops := ops0 ++ st.ops ++ ops2, middle := some (st.map, st.moved) }

def patchKeyedChildren (c1 c2 : List VN) : List PatchOp :=
  (patchKeyedChildrenFull c1 c2).ops

def pkcMiddleInfo (c1 c2 : List VN) : Option (List Nat × Bool) :=
  (patchKeyedChildrenFull c1 c2).middle

def isMove : PatchOp → Bool
  | .moveNode _ => true
  | _ => false

def countMoves (ops : List PatchOp) : Nat := (ops.filter isMove).length

/-- A keyed element child. -/
def elVN (k : Nat) : VN := ⟨1, "div", some k⟩

/-- Old children `[A, B, C, D]` (keys 1-4). -/
def exOldABCD : List VN := [elVN 1, elVN 2, elVN 3, elVN 4]

/-- New children `[A, C, B, D]` — the single transposition of the claim. -/
def exNewACBD : List VN := [elVN 1, elVN 3, elVN 2, elVN 4]

/-- New children `[X, C, B, D]` (X fresh, key 5): the middle phase sees
`newIndexToOldIndexMap = [0, 3, 2]` with a leading zero. -/
def exNewXCBD : List VN := [elVN 5, elVN 3, elVN 2, elVN 4]

/-! ### The longest-increasing-subsequence specification -/

/-- A strictly increasing subsequence of the nonzero entries of `arr`,
given by its index list: indices strictly increasing and in range, every
indexed entry nonzero, entries strictly increasing. -/
def IsNZChain (arr : List Nat) (l : List Nat) : Prop :=
  l.Pairwise (· < ·) ∧ (∀ i ∈ l, i < arr.length ∧ entry arr i ≠ 0) ∧
    (l.map (entry arr)).Pairwise (· < ·)

/-- Like `IsNZChain` with indices below `m`, but index 0 is additionally
admitted with a zero entry — the shape `getSequence`'s seeded
`result = [0]` produces. -/
def IsGChainB (arr : List Nat) (m : Nat) (l : List Nat) : Prop :=
  l.Pairwise (· < ·) ∧ (∀ i ∈ l, i < m ∧ (entry arr i ≠ 0 ∨ i = 0)) ∧
    (l.map (entry arr)).Pairwise (· < ·)

def IsGChain (arr : List Nat) (l : List Nat) : Prop :=
  IsGChainB arr arr.length l

theorem IsGChainB.mono {arr : List Nat} {m m' : Nat} {l : List Nat}
    (hmm : m ≤ m') (h : IsGChainB arr m l) : IsGChainB arr m' l :=
  ⟨h.1, fun i hi => ⟨Nat.lt_of_lt_of_le (h.2.1 i hi).1 hmm, (h.2.1 i hi).2⟩, h.2.2⟩

/-! ### pChain lemmas -/

theorem pChain_length (p : List Nat) : ∀ (k v : Nat), (pChain p k v).length = k + 1 := by
  intro k
  induction k with
  | zero => intro v; rfl
  | succ k ih =>
    intro v
    simp [pChain, ih]

theorem pChain_ne_nil (p : List Nat) (k v : Nat) : pChain p k v ≠ [] := by
  cases k with
  | zero => simp [pChain]
  | succ k => simp [pChain]

theorem pChain_getLast (p : List Nat) (k v : Nat) :
    (pChain p k v).getLast?.getD 0 = v := by
  cases k with
  | zero => rfl
  | succ k => simp [pChain, List.getLast?_concat]

theorem pChain_self_mem (p : List Nat) (k v : Nat) : v ∈ pChain p k v := by
  cases k with
  | zero => simp [pChain]
  | succ k => simp [pChain]

theorem getD_set_ne (l : List Nat) (i j x d : Nat) (h : i ≠ j) :
    (l.set i x).getD j d = l.getD j d := by
  simp [List.getD_eq_getElem?_getD, List.getElem?_set_ne h]

theorem getD_set_self (l : List Nat) (i x d : Nat) (h : i < l.length) :
    (l.set i x).getD i d = x := by
  simp [List.getD_eq_getElem?_getD, List.getElem?_set_self h]

/-- Setting `p` at an index above everything a chain visits leaves the
chain unchanged. -/
theorem pChain_set_high (p : List Nat) (idx x : Nat) :
    ∀ (k v : Nat), (∀ i ∈ pChain p k v, i < idx) →
      pChain (p.set idx x) k v = pChain p k v := by
  intro k
  induction k with
  | zero => intro v _; rfl
  | succ k ih =>
    intro v h
    have hv : v < idx := h v (pChain_self_mem p (k + 1) v)
    have hset : (p.set idx x).getD v 0 = p.getD v 0 :=
      getD_set_ne p idx v x 0 (fun hc => Nat.lt_irrefl idx (hc ▸ hv))
    show pChain (p.set idx x) k ((p.set idx x).getD v 0) ++ [v] =
      pChain p k (p.getD v 0) ++ [v]
    rw [hset, ih (p.getD v 0) ?_]
    intro i hi
    apply h i
    show i ∈ pChain p k (p.getD v 0) ++ [v]
    exact List.mem_append.mpr (Or.inl hi)

/-- In a strictly increasing list every member is at most the last one. -/
theorem pairwise_le_last {l : List Nat} (h : l.Pairwise (· < ·)) :
    ∀ a ∈ l, a ≤ l.getLast?.getD 0 := by
  induction l using List.reverseRecOn with
  | nil => intro a ha; cases ha
  | append_singleton xs x _ih =>
    intro a ha
    rw [List.getLast?_concat]
    simp only [Option.getD_some]
    rcases List.mem_append.mp ha with ha | ha
    · exact Nat.le_of_lt ((List.pairwise_append.mp h).2.2 a ha x (by simp))
    · rw [List.mem_singleton] at ha
      exact Nat.le_of_eq ha

/-- A `G`-chain within bound `m + 1` that contains `m` ends in `m`, and its
front is a `G`-chain within bound `m` whose last entry is below `m`'s. -/
theorem gchain_split_last {arr : List Nat} {m : Nat} {l : List Nat}
    (h : IsGChainB arr (m + 1) l) (hm : m ∈ l) :
    ∃ l₀, l = l₀ ++ [m] ∧ IsGChainB arr m l₀ ∧
      (l₀ ≠ [] → entry arr (l₀.getLast?.getD 0) < entry arr m) := by
  have hne : l ≠ [] := fun hc => by rw [hc] at hm; cases hm
  have hbound : ∀ a ∈ l, a ≤ m := fun a ha =>
    Nat.lt_succ_iff.mp (h.2.1 a ha).1
  have hlastm : l.getLast?.getD 0 = m := by
    have h1 := pairwise_le_last h.1 m hm
    have h2 : l.getLast?.getD 0 ∈ l := by
      rw [List.getLast?_eq_getLast l hne]
      simp only [Option.getD_some]
      exact List.getLast_mem hne
    exact Nat.le_antisymm (hbound _ h2) h1
  have hlast' : l.getLast hne = m := by
    rw [List.getLast?_eq_getLast l hne] at hlastm
    simp only [Option.getD_some] at hlastm
    exact hlastm
  have hsplit : l = l.dropLast ++ [m] := by
    conv_lhs => rw [← List.dropLast_concat_getLast hne]
    rw [hlast']
  refine ⟨l.dropLast, hsplit, ?_, ?_⟩
  · have hsub : l.dropLast.Sublist l := List.dropLast_sublist l
    have hnodup : l.Nodup := h.1.imp Nat.ne_of_lt
    have hmnotin : ¬ m ∈ l.dropLast := by
      intro hc
      have : ¬ l.Nodup := by
        rw [hsplit]
        intro hnd
        have := (List.nodup_append.mp hnd).2.2
        exact this hc (by simp)
      exact this hnodup
    refine ⟨h.1.sublist hsub, ?_, ?_⟩
    · intro i hi
      have hil := hsub.mem hi
      refine ⟨?_, (h.2.1 i hil).2⟩
      have : i ≤ m := hbound i hil
      rcases Nat.lt_or_eq_of_le this with hlt | rfl
      · exact hlt
      · exact absurd hi hmnotin
    · have : (l.map (entry arr)).dropLast = l.dropLast.map (entry arr) :=
        (List.map_dropLast _ l).symm
      rw [← this]
      exact h.2.2.sublist (List.dropLast_sublist _)
  · intro hne0
    have hmap : (l.map (entry arr)) =
        (l.dropLast.map (entry arr)) ++ [entry arr m] := by
      rw [hsplit]
      simp
    have hpw := h.2.2
    rw [hmap] at hpw
    have hall := (List.pairwise_append.mp hpw).2.2
    have hmem : entry arr (l.dropLast.getLast?.getD 0) ∈ l.dropLast.map (entry arr) := by
      have h2 : l.dropLast.getLast?.getD 0 ∈ l.dropLast := by
        rw [List.getLast?_eq_getLast _ hne0]
        simp only [Option.getD_some]
        exact List.getLast_mem hne0
      exact List.mem_map_of_mem _ h2
    exact hall _ hmem _ (by simp)

/-! ### Index bridging lemmas -/

/-- A strictly increasing list, read through `getD`, is increasing at every
pair of in-range positions. -/
theorem pairwise_getD_lt {l : List Nat} (h : l.Pairwise (· < ·)) :
    ∀ a b, a < b → b < l.length → l.getD a 0 < l.getD b 0 := by
  intro a b hab hb
  have ha : a < l.length := Nat.lt_trans hab hb
  rw [List.getD_eq_getElem l 0 ha, List.getD_eq_getElem l 0 hb]
  exact List.pairwise_iff_getElem.mp h a b ha hb hab

/-- Entry-sortedness of a list of indices, in `getD` form. -/
theorem pairwise_map_entry_lt {arr l : List Nat}
    (h : (l.map (entry arr)).Pairwise (· < ·)) :
    ∀ a b, a < b → b < l.length → entry arr (l.getD a 0) < entry arr (l.getD b 0) := by
  intro a b hab hb
  have ha : a < l.length := Nat.lt_trans hab hb
  rw [List.getD_eq_getElem l 0 ha, List.getD_eq_getElem l 0 hb]
  have hm := List.pairwise_iff_getElem.mp h a b
    (by simpa using ha) (by simpa using hb) hab
  simpa using hm

/-- Converse direction: `getD`-indexed entry-sortedness gives the
`Pairwise` form. -/
theorem pairwise_map_entry_of_getD {arr l : List Nat}
    (h : ∀ a b, a < b → b < l.length → entry arr (l.getD a 0) < entry arr (l.getD b 0)) :
    (l.map (entry arr)).Pairwise (· < ·) := by
  rw [List.pairwise_iff_getElem]
  intro a b ha hb hab
  simp only [List.length_map] at ha hb
  have hx := h a b hab hb
  rw [List.getD_eq_getElem l 0 ha, List.getD_eq_getElem l 0 hb] at hx
  simpa using hx

/-- Membership in `getD` form. -/
theorem mem_iff_getD {l : List Nat} {a : Nat} :
    a ∈ l ↔ ∃ idx, idx < l.length ∧ l.getD idx 0 = a := by
  constructor
  · intro h
    rcases List.mem_iff_getElem.mp h with ⟨i, hi, hval⟩
    exact ⟨i, hi, by rw [List.getD_eq_getElem l 0 hi]; exact hval⟩
  · rintro ⟨i, hi, hval⟩
    rw [← hval, List.getD_eq_getElem l 0 hi]
    exact List.getElem_mem hi

/-- The defaulted last element of a nonempty list is its last position. -/
theorem getLast?_getD_eq_getD (l : List Nat) (h : l ≠ []) :
    l.getLast?.getD 0 = l.getD (l.length - 1) 0 := by
  have hpos : 0 < l.length := List.length_pos.mpr h
  rw [List.getLast?_eq_getLast l h]
  simp only [Option.getD_some]
  rw [List.getD_eq_getElem l 0 (by omega)]
  exact List.getLast_eq_getElem l h

/-- The defaulted last element of a mapped list. -/
theorem getLast?_map_getD (arr l : List Nat) (h : l ≠ []) :
    (l.map (entry arr)).getLast?.getD 0 = entry arr (l.getLast?.getD 0) := by
  rw [List.getLast?_map, List.getLast?_eq_getLast l h]
  simp

/-- The defaulted last element after appending a singleton. -/
theorem getLast?_concat_getD (l : List Nat) (a : Nat) :
    (l ++ [a]).getLast?.getD 0 = a := by
  rw [List.getLast?_concat]
  rfl

/-- `getD` of an append, inside the left list. -/
theorem getD_append_left (l1 l2 : List Nat) (k : Nat) (h : k < l1.length) :
    (l1 ++ l2).getD k 0 = l1.getD k 0 := by
  rw [List.getD_eq_getElem?_getD, List.getD_eq_getElem?_getD, List.getElem?_append_left h]

/-- `getD` of `l ++ [x]` at position `l.length` is `x`. -/
theorem getD_append_self (l1 : List Nat) (x : Nat) :
    (l1 ++ [x]).getD l1.length 0 = x := by
  rw [List.getD_eq_getElem?_getD, List.getElem?_append_right (Nat.le_refl _)]
  simp

/-! ### The branch structure of a `getSequence` loop iteration -/

/-- `gsStep` written out as its three-way branch (renderer.js:884-921). -/
theorem gsStep_eq (arr : List Nat) (s : GSState) (i : Nat) :
    gsStep arr s i =
      if entry arr i = 0 then s
      else if entry arr (s.result.getD (s.result.length - 1) 0) < entry arr i then
        ⟨s.p.set i (s.result.getD (s.result.length - 1) 0), s.result ++ [i]⟩
      else if entry arr i < entry arr (s.result.getD
          (gsBSearch arr s.result (entry arr i) (arr.length + 1) 0 (s.result.length - 1)) 0) then
        ⟨if 0 < gsBSearch arr s.result (entry arr i) (arr.length + 1) 0 (s.result.length - 1)
            then s.p.set i (s.result.getD
              (gsBSearch arr s.result (entry arr i) (arr.length + 1) 0 (s.result.length - 1) - 1) 0)
            else s.p,
         s.result.set (gsBSearch arr s.result (entry arr i) (arr.length + 1) 0 (s.result.length - 1)) i⟩
      else s := rfl

/-- Iteration 0 never changes the seeded state: the branch conditions all
compare `arr[0]` against itself. -/
theorem gsStep_zero (arr : List Nat) : gsStep arr ⟨arr, [0]⟩ 0 = ⟨arr, [0]⟩ := by
  by_cases h : entry arr 0 = 0
  · simp [gsStep_eq, h]
  · simp [gsStep_eq, h, gsBSearch]

/-! ### The binary search of `getSequence` -/

/-- Specification of `gsBSearch` (renderer.js:898-910): with `result`'s
entries strictly increasing, it returns the leftmost position in `[u, v]`
whose entry is at least `x`, assuming everything before `u` is below `x`
and position `v` is at least `x`. -/
theorem gsBSearch_spec (arr result : List Nat) (x : Nat)
    (hsort : (result.map (entry arr)).Pairwise (· < ·)) :
    ∀ fuel u v, v - u < fuel → u ≤ v → v < result.length →
      (∀ t, t < u → entry arr (result.getD t 0) < x) →
      x ≤ entry arr (result.getD v 0) →
      u ≤ gsBSearch arr result x fuel u v ∧
      gsBSearch arr result x fuel u v ≤ v ∧
      (∀ t, t < gsBSearch arr result x fuel u v →
        entry arr (result.getD t 0) < x) ∧
      x ≤ entry arr (result.getD (gsBSearch arr result x fuel u v) 0) := by
  intro fuel
  induction fuel with
  | zero =>
    intro u v hfuel
    exact absurd hfuel (by omega)
  | succ fuel ih =>
    intro u v hfuel huv hv hlow hhigh
    simp only [gsBSearch]
    by_cases hlt : u < v
    · rw [if_pos hlt]
      have hc1 : u ≤ (u + v) / 2 := by omega
      have hc2 : (u + v) / 2 < v := by omega
      by_cases hcc : entry arr (result.getD ((u + v) / 2) 0) < x
      · rw [if_pos hcc]
        have hrec := ih ((u + v) / 2 + 1) v (by omega) (by omega) hv ?_ hhigh
        · exact ⟨by omega, hrec.2.1, hrec.2.2.1, hrec.2.2.2⟩
        · intro t ht
          rcases Nat.lt_or_ge t u with h1 | h1
          · exact hlow t h1
          · rcases Nat.lt_or_eq_of_le (Nat.lt_succ_iff.mp ht) with h2 | h2
            · exact Nat.lt_trans (pairwise_map_entry_lt hsort t ((u + v) / 2) h2 (by omega)) hcc
            · rw [h2]; exact hcc
      · rw [if_neg hcc]
        have hrec := ih u ((u + v) / 2) (by omega) (by omega) (by omega) hlow
          (Nat.le_of_not_lt hcc)
        exact ⟨hrec.1, by omega, hrec.2.2.1, hrec.2.2.2⟩
    · rw [if_neg hlt]
      have : u = v := by omega
      exact ⟨Nat.le_refl u, by omega, hlow, this ▸ hhigh⟩

/-! ### The main-loop invariant of `getSequence` -/

/-- The invariant of `getSequence`'s main loop after processing indices
`0, ..., m-1`: `result` is nonempty, of length at most `m`, holds indices
below `m` with strictly increasing entries; every `result` position `k`
roots a valid predecessor chain of length `k + 1`; and every bounded chain
is no longer than `result`, with its tail entry at least the entry
`result` records for its length. -/
def GSInv (arr : List Nat) (m : Nat) (s : GSState) : Prop :=
  s.result ≠ [] ∧
  s.result.length ≤ m ∧
  s.p.length = arr.length ∧
  (∀ j ∈ s.result, j < m) ∧
  (s.result.map (entry arr)).Pairwise (· < ·) ∧
  (∀ k, k < s.result.length → IsGChainB arr m (pChain s.p k (s.result.getD k 0))) ∧
  ∀ l, IsGChainB arr m l →
    l.length ≤ s.result.length ∧
    (l ≠ [] → entry arr (s.result.getD (l.length - 1) 0) ≤ entry arr (l.getLast?.getD 0))

/-- A bound-`m+1` chain avoiding `m` is a bound-`m` chain. -/
theorem gchainB_lower {arr : List Nat} {m : Nat} {l : List Nat}
    (hl : IsGChainB arr (m + 1) l) (hml : m ∉ l) : IsGChainB arr m l := by
  refine ⟨hl.1, ?_, hl.2.2⟩
  intro i hi
  obtain ⟨hib, hie⟩ := hl.2.1 i hi
  refine ⟨?_, hie⟩
  rcases Nat.lt_or_eq_of_le (Nat.lt_succ_iff.mp hib) with h2 | h2
  · exact h2
  · subst h2
    exact absurd hi hml

/-- All entries along an entry-sorted chain are below anything above its
last entry. -/
theorem chain_entries_lt {arr l : List Nat} (hl : (l.map (entry arr)).Pairwise (· < ·))
    (hne : l ≠ []) {x : Nat} (hlast : entry arr (l.getLast?.getD 0) < x) :
    ∀ e ∈ l.map (entry arr), e < x := by
  intro e he
  have h1 := pairwise_le_last hl e he
  rw [getLast?_map_getD arr l hne] at h1
  exact Nat.lt_of_le_of_lt h1 hlast

/-- Appending a fresh index `m` with a nonzero dominating entry to a
bounded chain gives a bound-`m+1` chain. -/
theorem gchainB_snoc {arr : List Nat} {m : Nat} {l : List Nat}
    (hl : IsGChainB arr m l) (hm0 : entry arr m ≠ 0)
    (hdom : ∀ e ∈ l.map (entry arr), e < entry arr m) :
    IsGChainB arr (m + 1) (l ++ [m]) := by
  refine ⟨?_, ?_, ?_⟩
  · refine List.pairwise_append.mpr ⟨hl.1, by simp, ?_⟩
    intro a ha b hb
    rw [List.mem_singleton] at hb
    subst hb
    exact (hl.2.1 a ha).1
  · intro i hi
    rcases List.mem_append.mp hi with hi | hi
    · obtain ⟨h1, h2⟩ := hl.2.1 i hi
      exact ⟨Nat.lt_succ_of_lt h1, h2⟩
    · rw [List.mem_singleton] at hi
      rw [hi]
      exact ⟨Nat.lt_succ_self m, Or.inl hm0⟩
  · rw [List.map_append]
    refine List.pairwise_append.mpr ⟨hl.2.2, by simp, ?_⟩
    intro a ha b hb
    rw [List.map_singleton, List.mem_singleton] at hb
    subst hb
    exact hdom a ha

/-- The invariant holds after the first iteration, for the seeded state
`p = arr, result = [0]`. -/
theorem gsInv_base (arr : List Nat) (h : arr ≠ []) : GSInv arr 1 ⟨arr, [0]⟩ := by
  have hlen : 0 < arr.length := List.length_pos.mpr h
  refine ⟨by simp, by simp, rfl, by simp, by simp, ?_, ?_⟩
  · intro k hk
    simp only [List.length_singleton] at hk
    have hk0 : k = 0 := by omega
    subst hk0
    refine ⟨by simp [pChain], ?_, by simp [pChain]⟩
    intro i hi
    have hi0 : i = 0 := by simpa [pChain] using hi
    subst hi0
    exact ⟨Nat.one_pos, Or.inr rfl⟩
  · intro l hl
    have hsmall : ∀ i ∈ l, i = 0 := fun i hi => Nat.lt_one_iff.mp (hl.2.1 i hi).1
    have hcases : l = [] ∨ l = [0] := by
      cases l with
      | nil => exact Or.inl rfl
      | cons a t =>
        have ha : a = 0 := hsmall a (by simp)
        cases t with
        | nil => exact Or.inr (by rw [ha])
        | cons b t2 =>
          have hb : b = 0 := hsmall b (by simp)
          have hp := (List.pairwise_cons.mp hl.1).1 b (by simp)
          omega
    rcases hcases with rfl | rfl
    · exact ⟨by simp, fun hc => absurd rfl hc⟩
    · exact ⟨by simp, fun _ => by simp⟩

/-- Shared bound for the binary-search branches: a bound-`m+1` chain that
contains `m` ends in `m` and has length at most `u + 1`, where `u` is any
position whose entry is at least `arr[m]` while everything before it is
below `arr[m]`. -/
theorem gs_split_bound {arr : List Nat} {m : Nat} {s : GSState} {u : Nat} {l : List Nat}
    (hsort : (s.result.map (entry arr)).Pairwise (· < ·))
    (hmax : ∀ l', IsGChainB arr m l' → l'.length ≤ s.result.length ∧
      (l' ≠ [] → entry arr (s.result.getD (l'.length - 1) 0) ≤
        entry arr (l'.getLast?.getD 0)))
    (hu4 : entry arr m ≤ entry arr (s.result.getD u 0))
    (hl : IsGChainB arr (m + 1) l) (hm : m ∈ l) :
    l.length ≤ u + 1 ∧ l.getLast?.getD 0 = m := by
  obtain ⟨l₀, rfl, hl₀, hlt0⟩ := gchain_split_last hl hm
  refine ⟨?_, getLast?_concat_getD l₀ m⟩
  rcases eq_or_ne l₀ [] with rfl | hne0
  · simp
  · obtain ⟨hlen0, hval0⟩ := hmax l₀ hl₀
    have hval0' := hval0 hne0
    have hlt : entry arr (s.result.getD (l₀.length - 1) 0) < entry arr m :=
      Nat.lt_of_le_of_lt hval0' (hlt0 hne0)
    have hpos : 0 < l₀.length := List.length_pos.mpr hne0
    by_contra hc
    push_neg at hc
    rw [List.length_append, List.length_singleton] at hc
    have hcu : u ≤ l₀.length - 1 := by omega
    have hmono : entry arr (s.result.getD u 0) ≤
        entry arr (s.result.getD (l₀.length - 1) 0) := by
      rcases Nat.lt_or_eq_of_le hcu with h1 | h1
      · exact Nat.le_of_lt (pairwise_map_entry_lt hsort u (l₀.length - 1) h1 (by omega))
      · rw [h1]
    exact Nat.lt_irrefl _ (Nat.lt_of_le_of_lt (Nat.le_trans hu4 hmono) hlt)

/-- One iteration of `getSequence`'s main loop preserves the invariant. -/
theorem gsStep_inv {arr : List Nat} (m : Nat) {s : GSState}
    (hm : 1 ≤ m) (hmn : m < arr.length) (hinv : GSInv arr m s) :
    GSInv arr (m + 1) (gsStep arr s m) := by
  obtain ⟨hne, hlen, hplen, hmem, hsort, hchain, hmax⟩ := hinv
  have hL : 0 < s.result.length := List.length_pos.mpr hne
  have hidx : ∀ a b, a < b → b < s.result.length →
      entry arr (s.result.getD a 0) < entry arr (s.result.getD b 0) :=
    pairwise_map_entry_lt hsort
  by_cases h0 : entry arr m = 0
  · -- zero entry: the iteration is skipped
    rw [gsStep_eq, if_pos h0]
    refine ⟨hne, by omega, hplen, fun j hj => Nat.lt_succ_of_lt (hmem j hj), hsort, ?_, ?_⟩
    · intro k hk
      exact IsGChainB.mono (Nat.le_succ m) (hchain k hk)
    · intro l hl
      refine hmax l (gchainB_lower hl ?_)
      intro hml
      rcases (hl.2.1 m hml).2 with h1 | h1
      · exact h1 h0
      · omega
  · by_cases hja : entry arr (s.result.getD (s.result.length - 1) 0) < entry arr m
    · -- append branch
      rw [gsStep_eq, if_neg h0, if_pos hja]
      have hmono : ∀ e ∈ s.result.map (entry arr), e < entry arr m :=
        chain_entries_lt hsort hne (by rw [getLast?_getD_eq_getD s.result hne]; exact hja)
      refine ⟨by simp, ?_, ?_, ?_, ?_, ?_, ?_⟩
      · rw [List.length_append, List.length_singleton]
        omega
      · rw [List.length_set]
        exact hplen
      · intro j hj
        rcases List.mem_append.mp hj with hj | hj
        · exact Nat.lt_succ_of_lt (hmem j hj)
        · rw [List.mem_singleton] at hj
          omega
      · rw [List.map_append]
        refine List.pairwise_append.mpr ⟨hsort, by simp, ?_⟩
        intro a ha b hb
        rw [List.map_singleton, List.mem_singleton] at hb
        rw [hb]
        exact hmono a ha
      · -- chains of the appended state
        intro k hk
        rw [List.length_append, List.length_singleton] at hk
        rcases Nat.lt_or_eq_of_le (Nat.lt_succ_iff.mp hk) with hklt | hkeq
        · rw [getD_append_left s.result [m] k hklt]
          have hold := hchain k hklt
          have hmembd : ∀ i ∈ pChain s.p k (s.result.getD k 0), i < m :=
            fun i hi => (hold.2.1 i hi).1
          rw [pChain_set_high s.p m (s.result.getD (s.result.length - 1) 0) k _ hmembd]
          exact IsGChainB.mono (Nat.le_succ m) hold
        · rw [hkeq, getD_append_self s.result m]
          obtain ⟨L', hL'⟩ : ∃ L', s.result.length = L' + 1 := ⟨s.result.length - 1, by omega⟩
          rw [hL']
          simp only [Nat.add_sub_cancel]
          rw [pChain]
          rw [getD_set_self s.p m (s.result.getD L' 0) 0 (by omega)]
          have hold := hchain L' (by omega)
          have hmembd : ∀ i ∈ pChain s.p L' (s.result.getD L' 0), i < m :=
            fun i hi => (hold.2.1 i hi).1
          rw [pChain_set_high s.p m (s.result.getD L' 0) L' _ hmembd]
          refine gchainB_snoc hold h0 ?_
          refine chain_entries_lt hold.2.2 (pChain_ne_nil _ _ _) ?_
          rw [pChain_getLast]
          have hidx1 : s.result.length - 1 = L' := by omega
          rw [hidx1] at hja
          exact hja
      · -- maximality for the appended state
        intro l hl
        rw [List.length_append, List.length_singleton]
        by_cases hml : m ∈ l
        · obtain ⟨l₀, rfl, hl₀, hlt0⟩ := gchain_split_last hl hml
          rw [List.length_append, List.length_singleton]
          obtain ⟨hlen0, hval0⟩ := hmax l₀ hl₀
          refine ⟨by omega, fun _ => ?_⟩
          rw [getLast?_concat_getD l₀ m]
          simp only [Nat.add_sub_cancel]
          rcases Nat.lt_or_eq_of_le hlen0 with hlt | heq
          · rw [getD_append_left s.result [m] l₀.length hlt]
            rcases Nat.lt_or_eq_of_le (by omega : l₀.length ≤ s.result.length - 1) with h1 | h1
            · exact Nat.le_of_lt
                (Nat.lt_trans (hidx l₀.length (s.result.length - 1) h1 (by omega)) hja)
            · rw [h1]
              exact Nat.le_of_lt hja
          · rw [heq, getD_append_self s.result m]
        · have hl' := gchainB_lower hl hml
          obtain ⟨h1, h2⟩ := hmax l hl'
          refine ⟨by omega, fun hne0 => ?_⟩
          have hlpos : 0 < l.length := List.length_pos.mpr hne0
          rw [getD_append_left s.result [m] (l.length - 1) (by omega)]
          exact h2 hne0
    · -- binary-search branches
      have hhigh0 : entry arr m ≤ entry arr (s.result.getD (s.result.length - 1) 0) :=
        Nat.le_of_not_lt hja
      have hbs := gsBSearch_spec arr s.result (entry arr m) hsort (arr.length + 1) 0
        (s.result.length - 1) (by omega) (by omega) (by omega)
        (fun t ht => absurd ht (Nat.not_lt_zero t)) hhigh0
      rw [gsStep_eq, if_neg h0, if_neg hja]
      set u := gsBSearch arr s.result (entry arr m) (arr.length + 1) 0 (s.result.length - 1)
        with hdefu
      obtain ⟨-, hu2, hu3, hu4⟩ := hbs
      have huL : u < s.result.length := by omega
      by_cases hrep : entry arr m < entry arr (s.result.getD u 0)
      · -- replace at position u
        rw [if_pos hrep]
        refine ⟨?_, ?_, ?_, ?_, ?_, ?_, ?_⟩
        · rw [← List.length_pos, List.length_set]
          omega
        · rw [List.length_set]
          omega
        · rcases Nat.eq_zero_or_pos u with hu0 | hu0
          · rw [hu0, if_neg (by omega : ¬ (0:Nat) < 0)]
            exact hplen
          · rw [if_pos hu0, List.length_set]
            exact hplen
        · intro j hj
          rcases List.mem_or_eq_of_mem_set hj with hj | hj
          · exact Nat.lt_succ_of_lt (hmem j hj)
          · omega
        · apply pairwise_map_entry_of_getD
          intro a b hab hb
          rw [List.length_set] at hb
          by_cases hau : u = a
          · rw [← hau] at hab ⊢
            rw [getD_set_self s.result u m 0 huL,
                getD_set_ne s.result u b m 0 (by omega)]
            exact Nat.lt_trans hrep (hidx u b hab hb)
          · by_cases hbu : u = b
            · rw [← hbu] at hab ⊢
              rw [getD_set_self s.result u m 0 huL,
                  getD_set_ne s.result u a m 0 hau]
              exact hu3 a hab
            · rw [getD_set_ne s.result u a m 0 hau, getD_set_ne s.result u b m 0 hbu]
              exact hidx a b hab hb
        · -- chains of the replaced state
          intro k hk
          rw [List.length_set] at hk
          by_cases hku : k = u
          · rw [hku, getD_set_self s.result u m 0 huL]
            rcases Nat.eq_zero_or_pos u with hu0 | hu0
            · rw [hu0, if_neg (by omega : ¬ (0:Nat) < 0)]
              refine ⟨by simp [pChain], ?_, by simp [pChain]⟩
              intro i hi
              rw [show pChain s.p 0 m = [m] from rfl, List.mem_singleton] at hi
              rw [hi]
              exact ⟨Nat.lt_succ_self m, Or.inl h0⟩
            · obtain ⟨u', hu'⟩ : ∃ u', u = u' + 1 := ⟨u - 1, by omega⟩
              rw [hu']
              rw [if_pos (by omega : 0 < u' + 1)]
              simp only [Nat.add_sub_cancel]
              rw [pChain]
              rw [getD_set_self s.p m (s.result.getD u' 0) 0 (by omega)]
              have hold := hchain u' (by omega)
              have hmembd : ∀ i ∈ pChain s.p u' (s.result.getD u' 0), i < m :=
                fun i hi => (hold.2.1 i hi).1
              rw [pChain_set_high s.p m (s.result.getD u' 0) u' _ hmembd]
              refine gchainB_snoc hold h0 ?_
              refine chain_entries_lt hold.2.2 (pChain_ne_nil _ _ _) ?_
              rw [pChain_getLast]
              exact hu3 u' (by omega)
          · rw [getD_set_ne s.result u k m 0 (fun hc => hku hc.symm)]
            have hold := hchain k hk
            have hmembd : ∀ i ∈ pChain s.p k (s.result.getD k 0), i < m :=
              fun i hi => (hold.2.1 i hi).1
            rcases Nat.eq_zero_or_pos u with hu0 | hu0
            · rw [hu0, if_neg (by omega : ¬ (0:Nat) < 0)]
              exact IsGChainB.mono (Nat.le_succ m) hold
            · rw [if_pos hu0, pChain_set_high s.p m (s.result.getD (u - 1) 0) k _ hmembd]
              exact IsGChainB.mono (Nat.le_succ m) hold
        · -- maximality for the replaced state
          intro l hl
          rw [List.length_set]
          by_cases hml : m ∈ l
          · obtain ⟨hlb, hlast⟩ := gs_split_bound hsort hmax hu4 hl hml
            have hlpos : 0 < l.length :=
              List.length_pos.mpr (fun hc => by rw [hc] at hml; cases hml)
            refine ⟨by omega, fun _ => ?_⟩
            rw [hlast]
            rcases Nat.lt_or_eq_of_le (by omega : l.length - 1 ≤ u) with hlt | hle
            · rw [getD_set_ne s.result u (l.length - 1) m 0 (by omega)]
              exact Nat.le_of_lt (hu3 _ hlt)
            · rw [hle, getD_set_self s.result u m 0 huL]
          · have hl' := gchainB_lower hl hml
            obtain ⟨h1, h2⟩ := hmax l hl'
            refine ⟨by omega, fun hne0 => ?_⟩
            have hlpos : 0 < l.length := List.length_pos.mpr hne0
            have hpt : entry arr ((s.result.set u m).getD (l.length - 1) 0) ≤
                entry arr (s.result.getD (l.length - 1) 0) := by
              by_cases hq : u = l.length - 1
              · rw [← hq, getD_set_self s.result u m 0 huL]
                exact Nat.le_of_lt hrep
              · rw [getD_set_ne s.result u (l.length - 1) m 0 hq]
            exact Nat.le_trans hpt (h2 hne0)
      · -- entry already present: no change
        rw [if_neg hrep]
        have heq : entry arr (s.result.getD u 0) = entry arr m :=
          Nat.le_antisymm (Nat.le_of_not_lt hrep) hu4
        refine ⟨hne, by omega, hplen, fun j hj => Nat.lt_succ_of_lt (hmem j hj), hsort,
          fun k hk => IsGChainB.mono (Nat.le_succ m) (hchain k hk), ?_⟩
        intro l hl
        by_cases hml : m ∈ l
        · obtain ⟨hlb, hlast⟩ := gs_split_bound hsort hmax hu4 hl hml
          have hlpos : 0 < l.length :=
            List.length_pos.mpr (fun hc => by rw [hc] at hml; cases hml)
          refine ⟨by omega, fun _ => ?_⟩
          rw [hlast]
          rcases Nat.lt_or_eq_of_le (by omega : l.length - 1 ≤ u) with hlt | hle
          · exact Nat.le_of_lt (hu3 _ hlt)
          · rw [hle]
            exact Nat.le_of_eq heq
        · exact hmax l (gchainB_lower hl hml)

/-- The main loop of `getSequence` run over the first `k` indices only. -/
def gsPartial (arr : List Nat) (k : Nat) : GSState :=
  (List.range k).foldl (gsStep arr) ⟨arr, [0]⟩

theorem gsLoop_eq_partial (arr : List Nat) : gsLoop arr = gsPartial arr arr.length := rfl

/-- The invariant holds at every prefix of the main loop. -/
theorem gsPartial_inv (arr : List Nat) (h : arr ≠ []) :
    ∀ k, 1 ≤ k → k ≤ arr.length → GSInv arr k (gsPartial arr k) := by
  intro k
  induction k with
  | zero =>
    intro h1
    exact absurd h1 (by omega)
  | succ k ih =>
    intro _ h2
    rcases Nat.eq_zero_or_pos k with rfl | hk
    · have hone : gsPartial arr 1 = ⟨arr, [0]⟩ := by
        simp [gsPartial, List.range_succ, gsStep_zero]
      rw [hone]
      exact gsInv_base arr h
    · have hfold : gsPartial arr (k + 1) = gsStep arr (gsPartial arr k) k := by
        simp [gsPartial, List.range_succ]
      rw [hfold]
      exact gsStep_inv k hk (by omega) (ih hk (by omega))

/-- The output of `getSequence` is a maximum-length bounded chain. -/
theorem getSequence_gchain (arr : List Nat) (h : arr ≠ []) :
    IsGChain arr (getSequence arr) ∧
    ∀ l, IsGChain arr l → l.length ≤ (getSequence arr).length := by
  have hpos : 0 < arr.length := List.length_pos.mpr h
  have hinv := gsPartial_inv arr h arr.length (by omega) (Nat.le_refl _)
  rw [← gsLoop_eq_partial] at hinv
  obtain ⟨hne, _, _, _, _, hchain, hmax⟩ := hinv
  have hL : 0 < (gsLoop arr).result.length := List.length_pos.mpr hne
  have hseq : getSequence arr =
      pChain (gsLoop arr).p ((gsLoop arr).result.length - 1)
        ((gsLoop arr).result.getD ((gsLoop arr).result.length - 1) 0) := rfl
  constructor
  · rw [hseq]
    exact hchain _ (by omega)
  · intro l hl
    rw [hseq, pChain_length]
    have := (hmax l hl).1
    omega

/-! ### From bounded chains to nonzero-entry subsequences -/

/-- A nonzero-entry chain is in particular a bounded chain. -/
theorem nzchain_gchain {arr l : List Nat} (h : IsNZChain arr l) : IsGChain arr l :=
  ⟨h.1, fun i hi => ⟨(h.2.1 i hi).1, Or.inl (h.2.1 i hi).2⟩, h.2.2⟩

/-- When `arr[0] ≠ 0` every bounded chain is a nonzero-entry chain. -/
theorem gchain_nzchain_of_ne {arr l : List Nat} (h0 : entry arr 0 ≠ 0)
    (h : IsGChain arr l) : IsNZChain arr l := by
  refine ⟨h.1, ?_, h.2.2⟩
  intro i hi
  refine ⟨(h.2.1 i hi).1, ?_⟩
  rcases (h.2.1 i hi).2 with h1 | h1
  · exact h1
  · rw [h1]
    exact h0

/-- A bounded chain avoiding index 0 is a nonzero-entry chain. -/
theorem gchain_nzchain_of_not_mem {arr l : List Nat} (h : IsGChain arr l)
    (h0 : (0 : Nat) ∉ l) : IsNZChain arr l := by
  refine ⟨h.1, ?_, h.2.2⟩
  intro i hi
  refine ⟨(h.2.1 i hi).1, ?_⟩
  rcases (h.2.1 i hi).2 with h1 | h1
  · exact h1
  · rw [h1] at hi
    exact absurd hi h0

/-- When `arr[0] = 0`, prefixing index 0 to a nonzero-entry chain gives a
bounded chain. -/
theorem zero_cons_gchain {arr l : List Nat} (hne : arr ≠ []) (h0 : entry arr 0 = 0)
    (h : IsNZChain arr l) : IsGChain arr (0 :: l) := by
  refine ⟨?_, ?_, ?_⟩
  · rw [List.pairwise_cons]
    refine ⟨fun a ha => ?_, h.1⟩
    have hnz := (h.2.1 a ha).2
    rcases Nat.eq_zero_or_pos a with rfl | hp
    · exact absurd h0 hnz
    · exact hp
  · intro i hi
    rcases List.mem_cons.mp hi with rfl | hi
    · exact ⟨List.length_pos.mpr hne, Or.inr rfl⟩
    · exact ⟨(h.2.1 i hi).1, Or.inl (h.2.1 i hi).2⟩
  · rw [List.map_cons, List.pairwise_cons]
    refine ⟨?_, h.2.2⟩
    intro b hb
    rcases List.mem_map.mp hb with ⟨a, ha, rfl⟩
    rw [h0]
    exact Nat.pos_of_ne_zero (h.2.1 a ha).2

/-- A bounded chain containing index 0 starts with it. -/
theorem gchain_head_zero {arr l : List Nat} (h : IsGChain arr l)
    (h0mem : (0 : Nat) ∈ l) : ∃ t, l = 0 :: t := by
  cases l with
  | nil => cases h0mem
  | cons a t =>
    rcases List.mem_cons.mp h0mem with rfl | hmem
    · exact ⟨t, rfl⟩
    · have := (List.pairwise_cons.mp h.1).1 0 hmem
      omega

/-- The tail of a bounded chain headed by index 0 is a nonzero-entry chain. -/
theorem gchain_tail_nzchain {arr t : List Nat} (h : IsGChain arr (0 :: t)) :
    IsNZChain arr t := by
  have hp := List.pairwise_cons.mp h.1
  refine ⟨hp.2, ?_, ?_⟩
  · intro i hi
    refine ⟨(h.2.1 i (List.mem_cons_of_mem _ hi)).1, ?_⟩
    rcases (h.2.1 i (List.mem_cons_of_mem _ hi)).2 with h1 | h1
    · exact h1
    · subst h1
      exact absurd (hp.1 0 hi) (Nat.lt_irrefl 0)
  · have hmp := h.2.2
    rw [List.map_cons] at hmp
    exact (List.pairwise_cons.mp hmp).2

/-- `getSequence` computes a longest strictly-increasing subsequence of
the nonzero entries — except that when `arr[0] = 0` the seeded
`result = [0]` leaks the spurious index 0 at the head of the output. -/
theorem getSequence_lis (arr : List Nat) (hne : arr ≠ []) :
    (entry arr 0 ≠ 0 → IsNZChain arr (getSequence arr) ∧
      ∀ l, IsNZChain arr l → l.length ≤ (getSequence arr).length) ∧
    (entry arr 0 = 0 → ∃ t, getSequence arr = 0 :: t ∧ IsNZChain arr t ∧
      ∀ l, IsNZChain arr l → l.length ≤ t.length) := by
  obtain ⟨hch, hmax⟩ := getSequence_gchain arr hne
  constructor
  · intro h0
    exact ⟨gchain_nzchain_of_ne h0 hch, fun l hl => hmax l (nzchain_gchain hl)⟩
  · intro h0
    have h0mem : (0 : Nat) ∈ getSequence arr := by
      by_contra hc
      have hnz : IsNZChain arr (getSequence arr) := gchain_nzchain_of_not_mem hch hc
      have hlen := hmax _ (zero_cons_gchain hne h0 hnz)
      rw [List.length_cons] at hlen
      omega
    obtain ⟨t, ht⟩ := gchain_head_zero hch h0mem
    refine ⟨t, ht, gchain_tail_nzchain (ht ▸ hch), ?_⟩
    intro l hl
    have h1 := hmax _ (zero_cons_gchain hne h0 hl)
    rw [ht] at h1
    simp only [List.length_cons] at h1
    omega

/-! ### The back-to-front loop moves exactly the off-sequence matches -/

/-- Characterisation of the `moveNode` operations of `finalLoop` when
`moved` is set: processing indices `fuel - 1, ..., 0` with the pointer at
`c - 1`, where the first `c` sequence members are those below `fuel`, a
move is emitted exactly for the matched indices (`map[i] ≠ 0`) off the
sequence. -/
theorem finalLoop_move_char (map seq : List Nat) (s2 : Nat)
    (hsorted : seq.Pairwise (· < ·))
    (h0 : ∀ a ∈ seq, map.getD a 0 = 0 → a = 0) :
    ∀ fuel c, c ≤ seq.length →
      (∀ idx, idx < c → seq.getD idx 0 < fuel) →
      (∀ idx, c ≤ idx → idx < seq.length → fuel ≤ seq.getD idx 0) →
      ∀ i, (PatchOp.moveNode (s2 + i) ∈ finalLoop map seq true s2 fuel ((c : Int) - 1) ↔
        i < fuel ∧ map.getD i 0 ≠ 0 ∧ i ∉ seq) := by
  intro fuel
  induction fuel with
  | zero =>
    intro c _ _ _ i
    simp [finalLoop]
  | succ icur ih =>
    intro c hcle hlow hhigh i
    have hmemchar : icur ∈ seq ↔ ∃ c', c = c' + 1 ∧ seq.getD c' 0 = icur := by
      constructor
      · intro hmem
        rcases mem_iff_getD.mp hmem with ⟨idx, hidxl, hval⟩
        have h1 : idx < c := by
          by_contra hcc
          push_neg at hcc
          have := hhigh idx hcc hidxl
          omega
        refine ⟨c - 1, by omega, ?_⟩
        rcases Nat.lt_or_eq_of_le (by omega : idx ≤ c - 1) with h2 | h2
        · exfalso
          have hidx1 : idx + 1 < c := by omega
          have hlt := pairwise_getD_lt hsorted idx (idx + 1) (by omega) (by omega)
          have := hlow (idx + 1) hidx1
          omega
        · rw [← h2]
          exact hval
      · rintro ⟨c', rfl, hval⟩
        exact mem_iff_getD.mpr ⟨c', by omega, hval⟩
    by_cases hmi : map.getD icur 0 = 0
    · -- unmatched: mount branch
      have hb1 : (map.getD icur 0 == 0) = true := beq_iff_eq.mpr hmi
      have hunf : finalLoop map seq true s2 (icur + 1) ((c : Int) - 1) =
          PatchOp.mountNew (s2 + icur) :: finalLoop map seq true s2 icur ((c : Int) - 1) := by
        rw [finalLoop, hb1, if_pos rfl]
      rw [hunf]
      by_cases hmem : icur ∈ seq
      · have hz : icur = 0 := h0 icur hmem hmi
        subst hz
        rw [show finalLoop map seq true s2 0 ((c : Int) - 1) = [] from rfl]
        constructor
        · intro hmemop
          rcases List.mem_cons.mp hmemop with hx | hx
          · exact PatchOp.noConfusion hx
          · cases hx
        · rintro ⟨hx1, hx2, _⟩
          have : i = 0 := by omega
          rw [this] at hx2
          exact absurd hmi hx2
      · have hlow' : ∀ idx, idx < c → seq.getD idx 0 < icur := by
          intro idx hidxc
          have h1 := hlow idx hidxc
          have h2 : seq.getD idx 0 ≠ icur := by
            intro hcval
            exact hmem (mem_iff_getD.mpr ⟨idx, by omega, hcval⟩)
          omega
        have hhigh' : ∀ idx, c ≤ idx → idx < seq.length → icur ≤ seq.getD idx 0 := by
          intro idx ha hb
          have := hhigh idx ha hb
          omega
        have hih := ih c hcle hlow' hhigh' i
        constructor
        · intro hmemop
          rcases List.mem_cons.mp hmemop with hx | hx
          · exact PatchOp.noConfusion hx
          · have hr := hih.mp hx
            exact ⟨by omega, hr.2.1, hr.2.2⟩
        · rintro ⟨hx1, hx2, hx3⟩
          rcases Nat.lt_or_eq_of_le (Nat.lt_succ_iff.mp hx1) with h4 | h4
          · exact List.mem_cons_of_mem _ (hih.mpr ⟨h4, hx2, hx3⟩)
          · rw [h4] at hx2
            exact absurd hmi hx2
    · -- matched entry
      rcases Nat.eq_zero_or_pos c with rfl | hcpos
      · -- pointer exhausted: move
        have hnm : icur ∉ seq := by
          intro hmem
          rcases hmemchar.mp hmem with ⟨c', hc', _⟩
          omega
        have hb1 : (map.getD icur 0 == 0) = false := beq_eq_false_iff_ne.mpr hmi
        have hlt : (((0 : Nat) : Int) - 1) < 0 := by omega
        have hb2 : (decide ((((0 : Nat) : Int) - 1) < 0) ||
            !(icur == seq.getD ((((0 : Nat) : Int) - 1)).toNat 0)) = true := by
          rw [decide_eq_true hlt, Bool.true_or]
        have hunf : finalLoop map seq true s2 (icur + 1) (((0 : Nat) : Int) - 1) =
            PatchOp.moveNode (s2 + icur) :: finalLoop map seq true s2 icur (((0 : Nat) : Int) - 1) := by
          rw [finalLoop, hb1, if_neg Bool.false_ne_true, if_pos rfl, hb2, if_pos rfl]
        rw [hunf]
        have hih := ih 0 (by omega) (fun idx hx => absurd hx (by omega))
          (fun idx _ hb => by have := hhigh idx (by omega) hb; omega) i
        constructor
        · intro hmemop
          rcases List.mem_cons.mp hmemop with hx | hx
          · have hieq : i = icur := by
              injection hx with hx'
              omega
            rw [hieq]
            exact ⟨Nat.lt_succ_self _, hmi, hnm⟩
          · have hr := hih.mp hx
            exact ⟨by omega, hr.2.1, hr.2.2⟩
        · rintro ⟨hx1, hx2, hx3⟩
          rcases Nat.lt_or_eq_of_le (Nat.lt_succ_iff.mp hx1) with h4 | h4
          · exact List.mem_cons_of_mem _ (hih.mpr ⟨h4, hx2, hx3⟩)
          · rw [h4]
            exact List.mem_cons_self _ _
      · obtain ⟨c', rfl⟩ : ∃ c', c = c' + 1 := ⟨c - 1, by omega⟩
        have hptr0 : ¬(((c' + 1 : Nat) : Int) - 1 < 0) := by push_cast; omega
        have hptrt : (((c' + 1 : Nat) : Int) - 1).toNat = c' := by push_cast; omega
        by_cases hhit : seq.getD c' 0 = icur
        · -- pointer hit: consume
          have himem : icur ∈ seq := mem_iff_getD.mpr ⟨c', by omega, hhit⟩
          have hb1 : (map.getD icur 0 == 0) = false := beq_eq_false_iff_ne.mpr hmi
          have hb2 : (decide ((((c' + 1 : Nat) : Int) - 1) < 0) ||
              !(icur == seq.getD ((((c' + 1 : Nat) : Int) - 1)).toNat 0)) = false := by
            rw [decide_eq_false hptr0, hptrt, beq_iff_eq.mpr hhit.symm, Bool.not_true,
              Bool.or_false]
          have hunf : finalLoop map seq true s2 (icur + 1) (((c' + 1 : Nat) : Int) - 1) =
              finalLoop map seq true s2 icur ((((c' + 1 : Nat) : Int) - 1) - 1) := by
            rw [finalLoop, hb1, if_neg Bool.false_ne_true, if_pos rfl, hb2,
              if_neg Bool.false_ne_true]
          have hcast : (((c' + 1 : Nat) : Int) - 1) - 1 = ((c' : Nat) : Int) - 1 := by
            push_cast
            ring
          rw [hunf, hcast]
          have hlow' : ∀ idx, idx < c' → seq.getD idx 0 < icur := by
            intro idx hx
            have := pairwise_getD_lt hsorted idx c' hx (by omega)
            omega
          have hhigh' : ∀ idx, c' ≤ idx → idx < seq.length → icur ≤ seq.getD idx 0 := by
            intro idx ha hb
            rcases Nat.lt_or_ge idx (c' + 1) with hx | hx
            · have : idx = c' := by omega
              rw [this, hhit]
            · have := hhigh idx hx hb
              omega
          have hih := ih c' (by omega) hlow' hhigh' i
          rw [hih]
          constructor
          · rintro ⟨hx1, hx2, hx3⟩
            exact ⟨by omega, hx2, hx3⟩
          · rintro ⟨hx1, hx2, hx3⟩
            rcases Nat.lt_or_eq_of_le (Nat.lt_succ_iff.mp hx1) with h4 | h4
            · exact ⟨h4, hx2, hx3⟩
            · rw [h4] at hx3
              exact absurd himem hx3
        · -- pointer miss: move
          have hnm : icur ∉ seq := by
            intro hmem
            rcases hmemchar.mp hmem with ⟨c'', hc'', hval⟩
            have : c'' = c' := by omega
            rw [this] at hval
            exact hhit hval
          have hb1 : (map.getD icur 0 == 0) = false := beq_eq_false_iff_ne.mpr hmi
          have hb2 : (decide ((((c' + 1 : Nat) : Int) - 1) < 0) ||
              !(icur == seq.getD ((((c' + 1 : Nat) : Int) - 1)).toNat 0)) = true := by
            rw [decide_eq_false hptr0, hptrt,
              beq_eq_false_iff_ne.mpr (fun hc => hhit hc.symm), Bool.not_false,
              Bool.false_or]
          have hunf : finalLoop map seq true s2 (icur + 1) (((c' + 1 : Nat) : Int) - 1) =
              PatchOp.moveNode (s2 + icur) ::
                finalLoop map seq true s2 icur (((c' + 1 : Nat) : Int) - 1) := by
            rw [finalLoop, hb1, if_neg Bool.false_ne_true, if_pos rfl, hb2, if_pos rfl]
          rw [hunf]
          have hlow' : ∀ idx, idx < c' + 1 → seq.getD idx 0 < icur := by
            intro idx hx
            have h1 := hlow idx hx
            have h2 : seq.getD idx 0 ≠ icur := by
              intro hcval
              exact hnm (mem_iff_getD.mpr ⟨idx, by omega, hcval⟩)
            omega
          have hhigh' : ∀ idx, c' + 1 ≤ idx → idx < seq.length → icur ≤ seq.getD idx 0 := by
            intro idx ha hb
            have := hhigh idx ha hb
            omega
          have hih := ih (c' + 1) hcle hlow' hhigh' i
          constructor
          · intro hmemop
            rcases List.mem_cons.mp hmemop with hx | hx
            · have hieq : i = icur := by
                injection hx with hx'
                omega
              rw [hieq]
              exact ⟨Nat.lt_succ_self _, hmi, hnm⟩
            · have hr := hih.mp hx
              exact ⟨by omega, hr.2.1, hr.2.2⟩
          · rintro ⟨hx1, hx2, hx3⟩
            rcases Nat.lt_or_eq_of_le (Nat.lt_succ_iff.mp hx1) with h4 | h4
            · exact List.mem_cons_of_mem _ (hih.mpr ⟨h4, hx2, hx3⟩)
            · rw [h4]
              exact List.mem_cons_self _ _

/-- The back-to-front loop of `patchKeyedChildren`, run as the source runs
it when `moved` is set (`fuel = toBePatched = map.length`, pointer at the
end of `seq = getSequence map`), moves exactly the matched indices off the
computed sequence. -/
theorem getSequence_finalLoop_moves (map : List Nat) (s2 : Nat) (hne : map ≠ []) :
    ∀ i, (PatchOp.moveNode (s2 + i) ∈
        finalLoop map (getSequence map) true s2 map.length
          (((getSequence map).length : Int) - 1) ↔
      i < map.length ∧ entry map i ≠ 0 ∧ i ∉ getSequence map) := by
  obtain ⟨hch, _⟩ := getSequence_gchain map hne
  have hsorted : (getSequence map).Pairwise (· < ·) := hch.1
  have h0 : ∀ a ∈ getSequence map, map.getD a 0 = 0 → a = 0 := by
    intro a ha hz
    rcases (hch.2.1 a ha).2 with h1 | h1
    · exact absurd hz h1
    · exact h1
  have hlow : ∀ idx, idx < (getSequence map).length →
      (getSequence map).getD idx 0 < map.length := by
    intro idx hidx
    have hmem : (getSequence map).getD idx 0 ∈ getSequence map := by
      rw [List.getD_eq_getElem _ 0 hidx]
      exact List.getElem_mem hidx
    exact (hch.2.1 _ hmem).1
  exact finalLoop_move_char map (getSequence map) s2 hsorted h0 map.length
    (getSequence map).length (Nat.le_refl _) hlow
    (fun idx h1 h2 => absurd h2 (by omega))

/-- **C3**: in the middle-region phase of keyed reconciliation,
`getSequence` applied to `newIndexToOldIndexMap` returns the indices of a
longest strictly-increasing subsequence of the nonzero entries — except
that when `map[0] = 0` the seeded `result = [0]` additionally leaks the
spurious index 0 (whose entry is zero) at the head, ahead of a
maximum-length nonzero subsequence; the back-to-front loop moves exactly
the matched indices off the computed sequence (so every matched node on
it keeps its position); and for old children `[A,B,C,D]` against new
`[A,C,B,D]` the patch performs exactly one move. -/
theorem keyed_move_minimality (map : List Nat) (s2 : Nat) (hne : map ≠ []) :
    ((entry map 0 ≠ 0 → IsNZChain map (getSequence map) ∧
        ∀ l, IsNZChain map l → l.length ≤ (getSequence map).length) ∧
      (entry map 0 = 0 → ∃ t, getSequence map = 0 :: t ∧ IsNZChain map t ∧
        ∀ l, IsNZChain map l → l.length ≤ t.length)) ∧
    (∀ i, PatchOp.moveNode (s2 + i) ∈
        finalLoop map (getSequence map) true s2 map.length
          (((getSequence map).length : Int) - 1) ↔
      i < map.length ∧ entry map i ≠ 0 ∧ i ∉ getSequence map) ∧
    countMoves (patchKeyedChildren exOldABCD exNewACBD) = 1 :=
  ⟨getSequence_lis map hne, getSequence_finalLoop_moves map s2 hne, rfl⟩

/-- Witness for C3 at the reachable map `[0, 3, 2]`. -/
theorem keyed_move_minimality_witness :
    (([0, 3, 2] : List Nat) ≠ [] ∧
      (entry [0, 3, 2] 0 = 0 → ∃ t, getSequence [0, 3, 2] = 0 :: t ∧
        IsNZChain [0, 3, 2] t ∧
        ∀ l, IsNZChain [0, 3, 2] l → l.length ≤ t.length)) ∧
    countMoves (patchKeyedChildren exOldABCD exNewACBD) = 1 :=
  ⟨⟨by decide, (keyed_move_minimality [0, 3, 2] 1 (by decide)).1.2⟩,
    (keyed_move_minimality [0, 3, 2] 1 (by decide)).2.2⟩

/-- **C3 counterexample**: the middle phase reached from old children
`[A,B,C,D]` (keys 1-4) and new children `[X,C,B,D]` (X fresh) produces
`newIndexToOldIndexMap = [0, 3, 2]` with `moved = true`, and
`getSequence [0, 3, 2] = [0, 2]`: the returned head index 0 has entry 0,
so the output is not the index list of a subsequence of the *nonzero*
entries, contrary to the claim's description of `getSequence`. -/
theorem c3_getSequence_returns_zero_entry_index :
    pkcMiddleInfo exOldABCD exNewXCBD = some ([0, 3, 2], true) ∧
    getSequence [0, 3, 2] = [0, 2] ∧
    entry [0, 3, 2] 0 = 0 ∧
    ¬ IsNZChain [0, 3, 2] (getSequence [0, 3, 2]) :=
  ⟨rfl, rfl, rfl, fun h => (h.2.1 0 (by decide)).2 rfl⟩

end HF
